import Mathlib

/-!
Verification of the aoc-2022 puzzle solvers against their natural-language
specification.  Each Rust source file is shallowly embedded: pure functions
become Lean functions over `Nat` (with explicit `% 2 ^ 32` where `u32`
overflow can occur), fallible code returns `Except`, and the panicking
operations (`unwrap`, out-of-bounds slice indexing) are modelled by an outer
`Option` whose `none` denotes an aborted (panicked) run.
-/

/-! ## Shared library (`src/lib.rs`) -/

namespace Aoc

/-- Abstract I/O error carrying an error code, standing in for `io::Error`. -/
inductive IOError where
  | mk (code : Nat) : IOError
deriving DecidableEq

/-- A model of the file system as seen by `read_lines`: a path either fails
to open with an I/O error, or yields the sequence of per-line read results
that the buffered reader produces. -/
def Fs : Type := String → Except IOError (List (Except IOError String))

/-- `Iterator::collect::<io::Result<Vec<String>>>`: stops at the first
failing line read. -/
def collectLines : List (Except IOError String) → Except IOError (List String)
  | [] => .ok []
  | .error e :: _ => .error e
  | .ok s :: rest => (collectLines rest).map (fun ls => s :: ls)

/-- `read_lines` from `src/lib.rs`: open the file, then collect the line
reads. -/
def read_lines (fs : Fs) (path : String) : Except IOError (List String) :=
  match fs path with
  | .error e => .error e
  | .ok rs => collectLines rs

/-- An externally visible effect of a puzzle binary. -/
inductive Event where
  | readFile (path : String) : Event
  | printLine (s : String) : Event
deriving DecidableEq

end Aoc

/-! ## Day 1 (`src/bin/day1.rs`) -/

namespace Day1

/-- `Day1Error`. The payloads of the wrapped errors are irrelevant to the
claims and are dropped. -/
inductive Day1Error where
  | ioError (e : Aoc.IOError) : Day1Error
  | parseIntError : Day1Error
  | emptyInput : Day1Error
deriving DecidableEq

/-- `2 ^ 32`, the modulus of `u32` arithmetic. -/
def W32 : Nat := 2 ^ 32

/-- `str::parse::<u32>`: an optional leading `+`, then one or more ASCII
digits, rejecting values that do not fit in `u32`. -/
def parseU32 (s : String) : Except Day1Error Nat :=
  let cs := match s.data with
    | '+' :: rest => rest
    | cs => cs
  if cs = [] then .error .parseIntError
  else if cs.all (fun c => c.isDigit) then
    let v := cs.foldl (fun acc c => acc * 10 + (c.toNat - 48)) 0
    if v < W32 then .ok v else .error .parseIntError
  else .error .parseIntError

/-- `slice::split(|line| line.is_empty())`: the blocks between empty lines,
empty blocks included. -/
def splitOnEmpty : List String → List (List String)
  | [] => [[]]
  | s :: rest =>
    if s.isEmpty then [] :: splitOnEmpty rest
    else
      match splitOnEmpty rest with
      | [] => [[s]]
      | g :: gs => (s :: g) :: gs

/-- `parse_elf_calories`. -/
def parse_elf_calories (lines : List String) :
    Except Day1Error (List (List Nat)) :=
  (splitOnEmpty lines).mapM (fun g => g.mapM parseU32)

/-- `v.iter().sum::<u32>()` (wrapping `u32` addition). -/
def sumU32 (v : List Nat) : Nat := v.sum % W32

/-- Descending order on `Nat`, the comparator of `sort_by(|a, b| b.cmp(a))`.
Rust's stable `sort_by` is modelled by insertion sort, which is stable. -/
def descLE (a b : Nat) : Prop := b ≤ a

instance : DecidableRel descLE := fun a b => Nat.decLe b a

instance : IsTotal Nat descLE := ⟨fun a b => Nat.le_total b a⟩

instance : IsTrans Nat descLE := ⟨fun _ _ _ h1 h2 => Nat.le_trans h2 h1⟩

/-- `part1`. -/
def part1 (input : List String) : Except Day1Error Nat :=
  match parse_elf_calories input with
  | .error e => .error e
  | .ok elfCalories =>
    let totals := elfCalories.map sumU32
    match totals.max? with
    | none => .error .emptyInput
    | some m => .ok m

/-- `part2`.  The result is `none` when the run panics: the slice indexing
`elf_total_calories[0..3]` is out of bounds when there are fewer than three
totals. -/
def part2 (input : List String) : Option (Except Day1Error Nat) :=
  match parse_elf_calories input with
  | .error e => some (.error e)
  | .ok elfCalories =>
    let totals := elfCalories.map sumU32
    let sorted := totals.insertionSort descLE
    if 3 ≤ sorted.length then some (.ok (sumU32 (sorted.take 3)))
    else none

/-- `main` for day 1: the run result (`none` denoting a panic) paired with
the trace of external effects. -/
def main (fs : Aoc.Fs) :
    Option (Except Day1Error Unit) × List Aoc.Event :=
  match Aoc.read_lines fs "inputs/day1.txt" with
  | .error e => (some (.error (.ioError e)), [.readFile "inputs/day1.txt"])
  | .ok input =>
    match part1 input with
    | .error e => (some (.error e), [.readFile "inputs/day1.txt"])
    | .ok v1 =>
      match part2 input with
      | none => (none, [.readFile "inputs/day1.txt",
          .printLine ("Part 1: " ++ toString v1)])
      | some (.error e) => (some (.error e), [.readFile "inputs/day1.txt",
          .printLine ("Part 1: " ++ toString v1)])
      | some (.ok v2) => (some (.ok ()), [.readFile "inputs/day1.txt",
          .printLine ("Part 1: " ++ toString v1),
          .printLine ("Part 2: " ++ toString v2)])

theorem part2_eq (input : List String) (groups : List (List Nat))
    (hp : parse_elf_calories input = .ok groups) :
    part2 input =
      (if 3 ≤ ((groups.map sumU32).insertionSort descLE).length
       then some (.ok (sumU32 (((groups.map sumU32).insertionSort descLE).take 3)))
       else none) := by
  unfold part2
  rw [hp]

/-- C10: given a successful parse, day1's `part2` panics exactly when there
are fewer than three elf groups, and otherwise returns `Ok` with the sum of
three totals that dominate all the remaining totals (the three largest). -/
theorem C10_day1_part2_top_three (input : List String)
    (groups : List (List Nat))
    (hp : parse_elf_calories input = .ok groups) :
    (part2 input = none ↔ groups.length < 3) ∧
    (3 ≤ groups.length →
      ∃ three rest, three.length = 3 ∧
        (groups.map sumU32).Perm (three ++ rest) ∧
        (∀ a ∈ three, ∀ b ∈ rest, b ≤ a) ∧
        part2 input = some (.ok (sumU32 three))) := by
  have hq := part2_eq input groups hp
  set s := (groups.map sumU32).insertionSort descLE with hs
  have hlen : s.length = groups.length := by
    rw [hs, (List.perm_insertionSort descLE (groups.map sumU32)).length_eq,
      List.length_map]
  constructor
  · rw [hq]
    by_cases h3 : 3 ≤ s.length
    · simp [if_pos h3]
      omega
    · simp [if_neg h3]
      omega
  · intro h3
    have h3s : 3 ≤ s.length := by omega
    refine ⟨s.take 3, s.drop 3, ?_, ?_, ?_, ?_⟩
    · rw [List.length_take]
      omega
    · rw [List.take_append_drop]
      exact (List.perm_insertionSort descLE (groups.map sumU32)).symm
    · intro a ha b hb
      exact (List.sorted_insertionSort descLE
        (groups.map sumU32)).rel_of_mem_take_of_mem_drop ha hb
    · rw [hq, if_pos h3s]

/-- Witness for C10 at the concrete input `["3", "", "1", "", "2"]`. -/
theorem C10_day1_part2_top_three_w :
    ∃ three rest, three.length = 3 ∧
      (([[3], [1], [2]] : List (List Nat)).map sumU32).Perm (three ++ rest) ∧
      (∀ a ∈ three, ∀ b ∈ rest, b ≤ a) ∧
      part2 ["3", "", "1", "", "2"] = some (.ok (sumU32 three)) :=
  (C10_day1_part2_top_three ["3", "", "1", "", "2"] [[3], [1], [2]]
    (by rfl)).2 (by decide)

end Day1

/-! ## Day 13 (`src/bin/day13.rs`) -/

namespace Day13

/-- `Day13Error`. -/
inductive Day13Error where
  | ioError (e : Aoc.IOError) : Day13Error
  | parseIntError : Day13Error
  | invalidPackageValue : Day13Error
  | invalidNumberOfPackets : Day13Error
  | dividerNotFound : Day13Error
deriving DecidableEq

/-- `PacketValue`. -/
inductive PacketValue where
  | integer (n : Nat) : PacketValue
  | list (vs : List PacketValue) : PacketValue

mutual
def decEqPV : (a b : PacketValue) → Decidable (a = b)
  | .integer a, .integer b =>
    match Nat.decEq a b with
    | isTrue h => isTrue (by rw [h])
    | isFalse h => isFalse (fun hh => h (PacketValue.integer.inj hh))
  | .integer _, .list _ => isFalse (fun h => PacketValue.noConfusion h)
  | .list _, .integer _ => isFalse (fun h => PacketValue.noConfusion h)
  | .list as, .list bs =>
    match decEqLPV as bs with
    | isTrue h => isTrue (by rw [h])
    | isFalse h => isFalse (fun hh => h (PacketValue.list.inj hh))
def decEqLPV : (as bs : List PacketValue) → Decidable (as = bs)
  | [], [] => isTrue rfl
  | [], _ :: _ => isFalse (fun h => List.noConfusion h)
  | _ :: _, [] => isFalse (fun h => List.noConfusion h)
  | a :: as, b :: bs =>
    match decEqPV a b, decEqLPV as bs with
    | isTrue h1, isTrue h2 => isTrue (by rw [h1, h2])
    | isFalse h1, _ => isFalse (fun hh => h1 (List.cons.inj hh).1)
    | _, isFalse h2 => isFalse (fun hh => h2 (List.cons.inj hh).2)
end

instance : DecidableEq PacketValue := decEqPV

/-! Structural size of a packet value, used as recursion fuel for `cmp`. -/
mutual
def psize : PacketValue → Nat
  | .integer _ => 1
  | .list vs => 1 + lsize vs
def lsize : List PacketValue → Nat
  | [] => 0
  | v :: vs => psize v + lsize vs
end

theorem psize_pos (a : PacketValue) : 1 ≤ psize a := by
  cases a <;> simp [psize]

/-- Fuel bound for comparing two packet values. -/
def pm (a b : PacketValue) : Nat := 2 * (psize a + psize b)

/-- Fuel bound for comparing two packet lists. -/
def lm (as bs : List PacketValue) : Nat := 2 * (lsize as + lsize bs) + 1

/-! Fuelled implementation of `Ord::cmp` for `PacketValue` together with its
inner `compare_lists`; the fuel only drives termination and is irrelevant
above the structural bound (`fuel_congr`). -/
mutual
def cmpFuel : Nat → PacketValue → PacketValue → Ordering
  | 0, _, _ => .eq
  | _ + 1, .integer a, .integer b => compare a b
  | f + 1, .integer a, .list bs => clFuel f [.integer a] bs
  | f + 1, .list as, .integer b => clFuel f as [.integer b]
  | f + 1, .list as, .list bs => clFuel f as bs
def clFuel : Nat → List PacketValue → List PacketValue → Ordering
  | 0, _, _ => .eq
  | _ + 1, [], [] => .eq
  | _ + 1, [], _ :: _ => .lt
  | _ + 1, _ :: _, [] => .gt
  | f + 1, a :: as, b :: bs =>
    match cmpFuel f a b with
    | .eq => clFuel f as bs
    | o => o
end

theorem fuel_congr : ∀ n : Nat,
    (∀ a b f g, pm a b ≤ n → pm a b ≤ f → pm a b ≤ g →
      cmpFuel f a b = cmpFuel g a b) ∧
    (∀ as bs f g, lm as bs ≤ n → lm as bs ≤ f → lm as bs ≤ g →
      clFuel f as bs = clFuel g as bs) := by
  intro n
  induction n using Nat.strong_induction_on with
  | _ n IH =>
    constructor
    · intro a b f g hn hf hg
      have hpa := psize_pos a
      have hpb := psize_pos b
      have hf1 : 1 ≤ f := by simp [pm] at hf; omega
      have hg1 : 1 ≤ g := by simp [pm] at hg; omega
      obtain ⟨f', rfl⟩ : ∃ f', f = f' + 1 := ⟨f - 1, by omega⟩
      obtain ⟨g', rfl⟩ : ∃ g', g = g' + 1 := ⟨g - 1, by omega⟩
      cases a with
      | integer a =>
        cases b with
        | integer b => rfl
        | list bs =>
          show clFuel f' [.integer a] bs = clFuel g' [.integer a] bs
          have hm : lm [.integer a] bs + 1 = pm (.integer a) (.list bs) := by
            simp [pm, lm, psize, lsize]; omega
          exact (IH (n - 1) (by omega)).2 [.integer a] bs f' g'
            (by omega) (by omega) (by omega)
      | list as =>
        cases b with
        | integer b =>
          show clFuel f' as [.integer b] = clFuel g' as [.integer b]
          have hm : lm as [.integer b] + 1 = pm (.list as) (.integer b) := by
            simp [pm, lm, psize, lsize]; omega
          exact (IH (n - 1) (by omega)).2 as [.integer b] f' g'
            (by omega) (by omega) (by omega)
        | list bs =>
          show clFuel f' as bs = clFuel g' as bs
          have hm : lm as bs + 3 = pm (.list as) (.list bs) := by
            simp [pm, lm, psize, lsize]; omega
          exact (IH (n - 1) (by omega)).2 as bs f' g'
            (by omega) (by omega) (by omega)
    · intro as bs f g hn hf hg
      have hf1 : 1 ≤ f := by simp [lm] at hf; omega
      have hg1 : 1 ≤ g := by simp [lm] at hg; omega
      obtain ⟨f', rfl⟩ : ∃ f', f = f' + 1 := ⟨f - 1, by omega⟩
      obtain ⟨g', rfl⟩ : ∃ g', g = g' + 1 := ⟨g - 1, by omega⟩
      cases as with
      | nil => cases bs with
        | nil => rfl
        | cons b bs => rfl
      | cons a as =>
        cases bs with
        | nil => rfl
        | cons b bs =>
          show (match cmpFuel f' a b with
                | .eq => clFuel f' as bs
                | o => o) =
               (match cmpFuel g' a b with
                | .eq => clFuel g' as bs
                | o => o)
          have hpa := psize_pos a
          have hpb := psize_pos b
          have hm : pm a b + 2 * (lsize as + lsize bs) + 1 =
              lm (a :: as) (b :: bs) := by
            simp [pm, lm, psize, lsize]; omega
          have h1 : cmpFuel f' a b = cmpFuel g' a b :=
            (IH (n - 1) (by omega)).1 a b f' g'
              (by omega) (by omega) (by omega)
          have hm2 : lm as bs + 2 * (psize a + psize b) =
              lm (a :: as) (b :: bs) := by
            simp [pm, lm, psize, lsize]; omega
          have h2 : clFuel f' as bs = clFuel g' as bs :=
            (IH (n - 1) (by omega)).2 as bs f' g'
              (by omega) (by omega) (by omega)
          rw [h1, h2]

/-- `Ord::cmp` for `PacketValue` (`impl Ord for PacketValue`). -/
def cmp (a b : PacketValue) : Ordering := cmpFuel (pm a b) a b

/-- The nested `compare_lists` helper of `impl Ord for PacketValue`. -/
def compare_lists (as bs : List PacketValue) : Ordering :=
  clFuel (lm as bs) as bs

end Day13

namespace Day13

theorem cmpFuel_eq_cmp (f : Nat) (a b : PacketValue) (h : pm a b ≤ f) :
    cmpFuel f a b = cmp a b :=
  (fuel_congr f).1 a b f (pm a b) h h (Nat.le_refl _)

theorem clFuel_eq_cl (f : Nat) (as bs : List PacketValue)
    (h : lm as bs ≤ f) : clFuel f as bs = compare_lists as bs :=
  (fuel_congr f).2 as bs f (lm as bs) h h (Nat.le_refl _)

theorem cmp_int_int (a b : Nat) :
    cmp (.integer a) (.integer b) = compare a b := rfl

theorem cmp_int_list (a : Nat) (bs : List PacketValue) :
    cmp (.integer a) (.list bs) = compare_lists [.integer a] bs := by
  have h : pm (.integer a) (.list bs) = lm [.integer a] bs + 1 := by
    simp [pm, lm, psize, lsize]; omega
  show cmpFuel (pm (.integer a) (.list bs)) _ _ = _
  rw [h]
  show clFuel (lm [.integer a] bs) [.integer a] bs = _
  rfl

theorem cmp_list_int (as : List PacketValue) (b : Nat) :
    cmp (.list as) (.integer b) = compare_lists as [.integer b] := by
  have h : pm (.list as) (.integer b) = lm as [.integer b] + 1 := by
    simp [pm, lm, psize, lsize]; omega
  show cmpFuel (pm (.list as) (.integer b)) _ _ = _
  rw [h]
  show clFuel (lm as [.integer b]) as [.integer b] = _
  rfl

theorem cmp_list_list (as bs : List PacketValue) :
    cmp (.list as) (.list bs) = compare_lists as bs := by
  have h : pm (.list as) (.list bs) = (lm as bs + 2) + 1 := by
    simp [pm, lm, psize, lsize]; omega
  show cmpFuel (pm (.list as) (.list bs)) _ _ = _
  rw [h]
  show clFuel (lm as bs + 2) as bs = _
  exact clFuel_eq_cl _ _ _ (by omega)

theorem cl_nil_nil : compare_lists [] [] = .eq := rfl

theorem cl_nil_cons (b : PacketValue) (bs : List PacketValue) :
    compare_lists [] (b :: bs) = .lt := by
  have h : lm [] (b :: bs) = (2 * (psize b + lsize bs)) + 1 := by
    simp [lm, lsize]
  show clFuel (lm [] (b :: bs)) _ _ = _
  rw [h]
  rfl

theorem cl_cons_nil (a : PacketValue) (as : List PacketValue) :
    compare_lists (a :: as) [] = .gt := by
  have h : lm (a :: as) [] = (2 * (psize a + lsize as)) + 1 := by
    simp [lm, lsize]
  show clFuel (lm (a :: as) []) _ _ = _
  rw [h]
  rfl

theorem cl_cons_cons (a b : PacketValue) (as bs : List PacketValue) :
    compare_lists (a :: as) (b :: bs) =
      (match cmp a b with
       | .eq => compare_lists as bs
       | o => o) := by
  have hpa := psize_pos a
  have hpb := psize_pos b
  have h : lm (a :: as) (b :: bs) =
      (2 * (psize a + lsize as + (psize b + lsize bs))) + 1 := by
    simp [lm, lsize]
  show clFuel (lm (a :: as) (b :: bs)) _ _ = _
  rw [h]
  show (match cmpFuel (2 * (psize a + lsize as + (psize b + lsize bs))) a b with
        | .eq => clFuel (2 * (psize a + lsize as + (psize b + lsize bs))) as bs
        | o => o) = _
  rw [cmpFuel_eq_cmp _ _ _ (by simp [pm]; omega),
    clFuel_eq_cl _ _ _ (by simp [lm]; omega)]

end Day13

namespace Day13

/-- The one-element-list view used by mixed integer/list comparisons. -/
def toL : PacketValue → List PacketValue
  | .integer n => [.integer n]
  | .list vs => vs

theorem lsize_toL (a : PacketValue) : lsize (toL a) ≤ psize a := by
  cases a <;> simp [toL, psize, lsize]

theorem cmp_toL (a b : PacketValue) :
    cmp a b = compare_lists (toL a) (toL b) := by
  cases a with
  | integer a =>
    cases b with
    | integer b =>
      rw [cmp_int_int]
      show _ = compare_lists [.integer a] [.integer b]
      rw [cl_cons_cons, cmp_int_int]
      cases compare a b <;> rfl
    | list bs => rw [cmp_int_list]; rfl
  | list as =>
    cases b with
    | integer b => rw [cmp_list_int]; rfl
    | list bs => rw [cmp_list_list]; rfl

theorem natCompareSwap (a b : Nat) : compare b a = (compare a b).swap := by
  rcases Nat.lt_trichotomy a b with h | h | h
  · rw [Nat.compare_eq_lt.mpr h, Nat.compare_eq_gt.mpr h]; rfl
  · subst h; rw [Nat.compare_eq_eq.mpr rfl]; rfl
  · rw [Nat.compare_eq_gt.mpr h, Nat.compare_eq_lt.mpr h]; rfl

theorem swap_aux : ∀ n : Nat,
    (∀ a b, psize a + psize b ≤ n → cmp b a = (cmp a b).swap) ∧
    (∀ as bs, lsize as + lsize bs ≤ n →
      compare_lists bs as = (compare_lists as bs).swap) := by
  intro n
  induction n using Nat.strong_induction_on with
  | _ n IH =>
    have hP : ∀ a b, psize a + psize b ≤ n → cmp b a = (cmp a b).swap := by
      intro a b hn
      match a, b with
      | .integer a, .integer b =>
        rw [cmp_int_int, cmp_int_int]; exact natCompareSwap a b
      | .integer a, .list bs =>
        rw [cmp_int_list, cmp_list_int]
        simp [psize, lsize] at hn
        exact (IH (n - 1) (by omega)).2 [.integer a] bs
          (by simp [psize, lsize]; omega)
      | .list as, .integer b =>
        rw [cmp_list_int, cmp_int_list]
        simp [psize, lsize] at hn
        exact (IH (n - 1) (by omega)).2 as [.integer b]
          (by simp [psize, lsize]; omega)
      | .list as, .list bs =>
        rw [cmp_list_list, cmp_list_list]
        simp [psize] at hn
        exact (IH (n - 1) (by omega)).2 as bs (by omega)
    refine ⟨hP, ?_⟩
    intro as bs hn
    match as, bs with
    | [], [] => rfl
    | [], b :: bs => rw [cl_nil_cons, cl_cons_nil]; rfl
    | a :: as, [] => rw [cl_cons_nil, cl_nil_cons]; rfl
    | a :: as, b :: bs =>
      rw [cl_cons_cons, cl_cons_cons]
      have hpa := psize_pos a
      have hpb := psize_pos b
      simp [lsize] at hn
      have hh : cmp b a = (cmp a b).swap := hP a b (by omega)
      have ht : compare_lists bs as = (compare_lists as bs).swap :=
        (IH (n - 1) (by omega)).2 as bs (by omega)
      rw [hh]
      cases cmp a b <;> simp [Ordering.swap, ht]

theorem cmp_swap (a b : PacketValue) : cmp b a = (cmp a b).swap :=
  (swap_aux (psize a + psize b)).1 a b (Nat.le_refl _)

theorem refl_aux : ∀ n : Nat,
    (∀ a, psize a ≤ n → cmp a a = .eq) ∧
    (∀ as, lsize as ≤ n → compare_lists as as = .eq) := by
  intro n
  induction n using Nat.strong_induction_on with
  | _ n IH =>
    have hP : ∀ a, psize a ≤ n → cmp a a = .eq := by
      intro a hn
      match a with
      | .integer a => rw [cmp_int_int]; exact Nat.compare_eq_eq.mpr rfl
      | .list vs =>
        rw [cmp_list_list]
        simp [psize] at hn
        exact (IH (n - 1) (by omega)).2 vs (by omega)
    refine ⟨hP, ?_⟩
    intro as hn
    match as with
    | [] => rfl
    | a :: as =>
      have hpa := psize_pos a
      simp [lsize] at hn
      rw [cl_cons_cons, hP a (by omega)]
      exact (IH (n - 1) (by omega)).2 as (by omega)

theorem cmp_refl (a : PacketValue) : cmp a a = .eq :=
  (refl_aux (psize a)).1 a (Nat.le_refl _)

end Day13

namespace Day13

theorem ect_aux : ∀ n : Nat,
    (∀ a b c, psize a + psize b + psize c ≤ n →
      (cmp a b = .eq → cmp a c = cmp b c) ∧
      (cmp a b = .lt → cmp b c = .lt → cmp a c = .lt)) ∧
    (∀ as bs cs, lsize as + lsize bs + lsize cs ≤ n →
      (compare_lists as bs = .eq →
        compare_lists as cs = compare_lists bs cs) ∧
      (compare_lists as bs = .lt → compare_lists bs cs = .lt →
        compare_lists as cs = .lt)) := by
  intro n
  induction n using Nat.strong_induction_on with
  | _ n IH =>
    have gen : ∀ a b c, lsize (toL a) + lsize (toL b) + lsize (toL c) < n →
        (cmp a b = .eq → cmp a c = cmp b c) ∧
        (cmp a b = .lt → cmp b c = .lt → cmp a c = .lt) := by
      intro a b c hlt
      rw [cmp_toL a b, cmp_toL a c, cmp_toL b c]
      exact (IH (n - 1) (by omega)).2 (toL a) (toL b) (toL c) (by omega)
    have hP : ∀ a b c, psize a + psize b + psize c ≤ n →
        (cmp a b = .eq → cmp a c = cmp b c) ∧
        (cmp a b = .lt → cmp b c = .lt → cmp a c = .lt) := by
      intro a b c hn
      match a, b, c with
      | .integer x, .integer y, .integer z =>
        constructor
        · intro h
          rw [cmp_int_int] at h
          have hxy := Nat.compare_eq_eq.mp h
          subst hxy
          rfl
        · intro hab hbc
          rw [cmp_int_int] at hab hbc ⊢
          exact Nat.compare_eq_lt.mpr
            (Nat.lt_trans (Nat.compare_eq_lt.mp hab)
              (Nat.compare_eq_lt.mp hbc))
      | .integer x, .integer y, .list cs =>
        exact gen _ _ _ (by simp [toL, psize, lsize] at hn ⊢; omega)
      | .integer x, .list bs, .integer z =>
        exact gen _ _ _ (by simp [toL, psize, lsize] at hn ⊢; omega)
      | .integer x, .list bs, .list cs =>
        exact gen _ _ _ (by simp [toL, psize, lsize] at hn ⊢; omega)
      | .list as, .integer y, .integer z =>
        exact gen _ _ _ (by simp [toL, psize, lsize] at hn ⊢; omega)
      | .list as, .integer y, .list cs =>
        exact gen _ _ _ (by simp [toL, psize, lsize] at hn ⊢; omega)
      | .list as, .list bs, .integer z =>
        exact gen _ _ _ (by simp [toL, psize, lsize] at hn ⊢; omega)
      | .list as, .list bs, .list cs =>
        exact gen _ _ _ (by simp [toL, psize, lsize] at hn ⊢; omega)
    refine ⟨hP, ?_⟩
    intro as bs cs hn
    constructor
    · intro h
      match as, bs with
      | [], [] => rfl
      | [], b :: bs₂ =>
        rw [cl_nil_cons] at h
        exact Ordering.noConfusion h
      | a :: as₂, [] =>
        rw [cl_cons_nil] at h
        exact Ordering.noConfusion h
      | a :: as₂, b :: bs₂ =>
        rw [cl_cons_cons] at h
        have hpa := psize_pos a
        have hpb := psize_pos b
        cases hab : cmp a b <;> rw [hab] at h <;> simp at h
        match cs with
        | [] => rw [cl_cons_nil, cl_cons_nil]
        | c :: cs₂ =>
          have hpc := psize_pos c
          simp [lsize] at hn
          rw [cl_cons_cons, cl_cons_cons, ← (hP a b c (by omega)).1 hab]
          cases hac : cmp a c <;> simp
          exact ((IH (n - 1) (by omega)).2 as₂ bs₂ cs₂ (by omega)).1 h
    · intro h1 h2
      match as, bs, cs with
      | [], [], _ =>
        rw [cl_nil_nil] at h1
        exact Ordering.noConfusion h1
      | [], b :: bs₂, [] =>
        rw [cl_cons_nil] at h2
        exact Ordering.noConfusion h2
      | [], b :: bs₂, c :: cs₂ => exact cl_nil_cons c cs₂
      | a :: as₂, [], _ =>
        rw [cl_cons_nil] at h1
        exact Ordering.noConfusion h1
      | a :: as₂, b :: bs₂, [] =>
        rw [cl_cons_nil] at h2
        exact Ordering.noConfusion h2
      | a :: as₂, b :: bs₂, c :: cs₂ =>
        have hpa := psize_pos a
        have hpb := psize_pos b
        have hpc := psize_pos c
        simp [lsize] at hn
        rw [cl_cons_cons] at h1 h2 ⊢
        cases hab : cmp a b <;> rw [hab] at h1 <;> simp at h1
        case lt =>
          cases hbc : cmp b c <;> rw [hbc] at h2 <;> simp at h2
          case lt =>
            rw [(hP a b c (by omega)).2 hab hbc]
          case eq =>
            have hcb : cmp c b = .eq := by rw [cmp_swap b c, hbc]; rfl
            have hca : cmp c a = cmp b a := (hP c b a (by omega)).1 hcb
            have hba : cmp b a = .gt := by rw [cmp_swap a b, hab]; rfl
            have hac : cmp a c = .lt := by
              rw [cmp_swap c a, hca, hba]; rfl
            rw [hac]
        case eq =>
          cases hbc : cmp b c <;> rw [hbc] at h2 <;> simp at h2
          case lt =>
            have hac : cmp a c = .lt := by
              rw [(hP a b c (by omega)).1 hab, hbc]
            rw [hac]
          case eq =>
            have hac : cmp a c = .eq := by
              rw [(hP a b c (by omega)).1 hab, hbc]
            rw [hac]
            show compare_lists as₂ cs₂ = .lt
            exact ((IH (n - 1) (by omega)).2 as₂ bs₂ cs₂ (by omega)).2 h1 h2

theorem cmp_eq_congr {a b : PacketValue} (c : PacketValue)
    (h : cmp a b = .eq) : cmp a c = cmp b c :=
  ((ect_aux (psize a + psize b + psize c)).1 a b c (Nat.le_refl _)).1 h

theorem cmp_lt_trans {a b c : PacketValue}
    (h1 : cmp a b = .lt) (h2 : cmp b c = .lt) : cmp a c = .lt :=
  ((ect_aux (psize a + psize b + psize c)).1 a b c (Nat.le_refl _)).2 h1 h2

end Day13

namespace Day13

/-- The `≤` relation of `Ord for PacketValue`, used by `sort`. -/
def packetLE (a b : PacketValue) : Prop := cmp a b ≠ .gt

instance : DecidableRel packetLE := fun a b =>
  inferInstanceAs (Decidable (cmp a b ≠ .gt))

theorem packetLE_total (a b : PacketValue) : packetLE a b ∨ packetLE b a := by
  unfold packetLE
  cases h : cmp a b with
  | gt =>
    right
    rw [cmp_swap a b, h]
    simp [Ordering.swap]
  | lt => left; simp
  | eq => left; simp

theorem packetLE_trans {a b c : PacketValue}
    (h1 : packetLE a b) (h2 : packetLE b c) : packetLE a c := by
  unfold packetLE at h1 h2 ⊢
  cases hab : cmp a b with
  | gt => exact absurd hab h1
  | eq => rw [cmp_eq_congr c hab]; exact h2
  | lt =>
    cases hbc : cmp b c with
    | gt => exact absurd hbc h2
    | lt => rw [cmp_lt_trans hab hbc]; simp
    | eq =>
      have hcb : cmp c b = .eq := by rw [cmp_swap b c, hbc]; rfl
      have hca : cmp c a = cmp b a := cmp_eq_congr a hcb
      have hba : cmp b a = .gt := by rw [cmp_swap a b, hab]; rfl
      have hac : cmp a c = .lt := by rw [cmp_swap c a, hca, hba]; rfl
      rw [hac]
      simp

instance : IsTotal PacketValue packetLE := ⟨packetLE_total⟩

instance : IsTrans PacketValue packetLE := ⟨fun _ _ _ => packetLE_trans⟩

/-- `str::parse::<u32>` on the collected digit characters. -/
def parseIntCs (cs : List Char) : Except Day13Error Nat :=
  let ds := match cs with
    | '+' :: rest => rest
    | cs => cs
  if ds = [] then .error .parseIntError
  else if ds.all (fun c => c.isDigit) then
    let v := ds.foldl (fun acc c => acc * 10 + (c.toNat - 48)) 0
    if v < 2 ^ 32 then .ok v else .error .parseIntError
  else .error .parseIntError

/-! `parse_packet_value` over a char buffer, state-passing instead of the
mutated `VecDeque`; `parseListLoop` is its inner `loop`.  The fuel only
bounds recursion depth: runs that the Rust parser completes successfully
consume at least one character per nested call, so the generous initial
fuel `2 * length + 2` never runs out on them. -/
mutual
def parse_packet_value :
    Nat → List Char → Except Day13Error (PacketValue × List Char)
  | 0, _ => .error .invalidPackageValue
  | _ + 1, [] => .error .invalidPackageValue
  | f + 1, '[' :: rest => parseListLoop f [] rest
  | _ + 1, buf =>
    let s := buf.takeWhile (fun c => c != ']' && c != ',')
    let rest := buf.dropWhile (fun c => c != ']' && c != ',')
    match parseIntCs s with
    | .error e => .error e
    | .ok n => .ok (.integer n, rest)
def parseListLoop :
    Nat → List PacketValue → List Char →
      Except Day13Error (PacketValue × List Char)
  | 0, _, _ => .error .invalidPackageValue
  | _ + 1, acc, ']' :: rest => .ok (.list acc, rest)
  | f + 1, acc, buf =>
    match parse_packet_value f buf with
    | .error e => .error e
    | .ok (v, rest) =>
      match rest with
      | ',' :: rest2 => parseListLoop f (acc ++ [v]) rest2
      | ']' :: rest2 => .ok (.list (acc ++ [v]), rest2)
      | _ => .error .invalidPackageValue
end

/-- `impl FromStr for PacketValue`: parse from the char buffer, discarding
any unconsumed suffix. -/
def parsePacket (s : String) : Except Day13Error PacketValue :=
  (parse_packet_value (2 * s.length + 2) s.data).map Prod.fst

/-- `parse_packets`: every non-empty line parsed as a packet. -/
def parse_packets (input : List String) :
    Except Day13Error (List PacketValue) :=
  (input.filter (fun line => !line.isEmpty)).mapM parsePacket

/-- The index scan of `part2`: the loop keeps overwriting the stored index,
so it yields one plus the position of the last occurrence. -/
def lastIndexOf (pv : PacketValue) (l : List PacketValue) : Option Nat :=
  l.enum.foldl (fun acc p => if p.2 = pv then some (p.1 + 1) else acc) none

/-- `part2`.  Rust's stable `sort` is modelled by insertion sort on the
order `packetLE`. -/
def part2 (input : List String) : Except Day13Error Nat :=
  match parse_packets input with
  | .error e => .error e
  | .ok packets =>
    match parsePacket "[[2]]" with
    | .error e => .error e
    | .ok dividerA =>
      match parsePacket "[[6]]" with
      | .error e => .error e
      | .ok dividerB =>
        let sorted :=
          (packets ++ [dividerA, dividerB]).insertionSort packetLE
        match lastIndexOf dividerA sorted with
        | none => .error .dividerNotFound
        | some ia =>
          match lastIndexOf dividerB sorted with
          | none => .error .dividerNotFound
          | some ib => .ok (ia * ib)

theorem foldl_lastIndex (pv : PacketValue) :
    ∀ (l : List (Nat × PacketValue)) (acc : Option Nat),
      ((∃ p ∈ l, p.2 = pv) ∨ acc.isSome) →
      (l.foldl (fun acc p => if p.2 = pv then some (p.1 + 1) else acc)
        acc).isSome := by
  intro l
  induction l with
  | nil =>
    intro acc h
    rcases h with ⟨p, hp, _⟩ | hs
    · exact absurd hp (List.not_mem_nil p)
    · exact hs
  | cons q l ih =>
    intro acc h
    show (l.foldl _ (if q.2 = pv then some (q.1 + 1) else acc)).isSome
    apply ih
    rcases h with ⟨p, hp, hpv⟩ | hs
    · rcases List.mem_cons.mp hp with rfl | hpl
      · right; rw [if_pos hpv]; rfl
      · left; exact ⟨p, hpl, hpv⟩
    · right
      by_cases hq : q.2 = pv
      · rw [if_pos hq]; rfl
      · rw [if_neg hq]; exact hs

theorem lastIndexOf_isSome {pv : PacketValue} {l : List PacketValue}
    (h : pv ∈ l) : ∃ k, lastIndexOf pv l = some k := by
  obtain ⟨i, hi⟩ := List.mem_iff_getElem?.mp h
  have hmem : (i, pv) ∈ l.enum := List.mem_enum_iff_getElem?.mpr hi
  have := foldl_lastIndex pv l.enum none (Or.inl ⟨(i, pv), hmem, rfl⟩)
  exact Option.isSome_iff_exists.mp this

end Day13

namespace Day13

/-- C4 counterexample: day13's comparison is not antisymmetric, hence not a
lawful total order on packet values: the integer `0` and the list `[0]`
compare `Equal` yet are distinct values. -/
theorem C4_day13_cmp_not_antisymm :
    cmp (.integer 0) (.list [.integer 0]) = .eq ∧
    cmp (.list [.integer 0]) (.integer 0) = .eq ∧
    (PacketValue.integer 0) ≠ (PacketValue.list [.integer 0]) :=
  ⟨by decide, by decide, by decide⟩

/-- C4 (amended): day13's comparison is a lawful total preorder — reflexive,
antisymmetric only up to `cmp`-equivalence (`cmp b a` is the swap of
`cmp a b`), transitive, and total — with two integers compared numerically,
an integer against a list as a one-element list, and lists element by
element with the shorter proper prefix smaller; hence the stable sort of
the packet list in `part2` is well-defined: it yields a `packetLE`-sorted
permutation of its input. -/
theorem C4_day13_cmp_total_preorder :
    (∀ a b c : PacketValue,
      cmp a a = .eq ∧
      cmp b a = (cmp a b).swap ∧
      (cmp a b = .eq → cmp a c = cmp b c) ∧
      (cmp a b = .lt → cmp b c = .lt → cmp a c = .lt)) ∧
    (∀ l : List PacketValue,
      (l.insertionSort packetLE).Perm l ∧
      List.Sorted packetLE (l.insertionSort packetLE)) := by
  constructor
  · intro a b c
    exact ⟨cmp_refl a, cmp_swap a b,
      fun h => cmp_eq_congr c h, fun h1 h2 => cmp_lt_trans h1 h2⟩
  · intro l
    exact ⟨List.perm_insertionSort packetLE l,
      List.sorted_insertionSort packetLE l⟩

/-- Witness for C4's transitivity component at concrete packets. -/
theorem C4_day13_cmp_total_preorder_w :
    cmp (.integer 1) (.integer 3) = .lt :=
  (C4_day13_cmp_total_preorder.1 (.integer 1) (.integer 2)
    (.integer 3)).2.2.2 (by decide) (by decide)

/-- C8: whenever every non-empty input line parses as a packet, day13's
`part2` returns `Ok`: both dividers are appended before sorting, so the
index scan finds each of them and the `DividerNotFound` branch is
unreachable. -/
theorem C8_day13_part2_ok (input : List String) (ps : List PacketValue)
    (hp : parse_packets input = .ok ps) : ∃ n, part2 input = .ok n := by
  have hda : parsePacket "[[2]]" = .ok (.list [.list [.integer 2]]) := by rfl
  have hdb : parsePacket "[[6]]" = .ok (.list [.list [.integer 6]]) := by rfl
  unfold part2
  rw [hp, hda, hdb]
  dsimp only
  have hpermA : (PacketValue.list [.list [.integer 2]]) ∈
      ((ps ++ [PacketValue.list [.list [.integer 2]],
        PacketValue.list [.list [.integer 6]]]).insertionSort packetLE) := by
    rw [(List.perm_insertionSort packetLE _).mem_iff]
    simp
  have hpermB : (PacketValue.list [.list [.integer 6]]) ∈
      ((ps ++ [PacketValue.list [.list [.integer 2]],
        PacketValue.list [.list [.integer 6]]]).insertionSort packetLE) := by
    rw [(List.perm_insertionSort packetLE _).mem_iff]
    simp
  obtain ⟨ka, hka⟩ := lastIndexOf_isSome hpermA
  obtain ⟨kb, hkb⟩ := lastIndexOf_isSome hpermB
  rw [hka, hkb]
  dsimp only
  exact ⟨ka * kb, rfl⟩

/-- Witness for C8 at the concrete input `["[1]"]`. -/
theorem C8_day13_part2_ok_w : ∃ n, part2 ["[1]"] = .ok n :=
  C8_day13_part2_ok ["[1]"] [.list [.integer 1]] (by rfl)

end Day13

/-! ## Day 11 (`src/bin/day11.rs`) -/

namespace Day11

/-- `MonkeyOperation`. -/
inductive MonkeyOperation where
  | add (n : Nat) : MonkeyOperation
  | multiply (n : Nat) : MonkeyOperation
  | square : MonkeyOperation
deriving DecidableEq

/-- `MonkeyOperation::calculate`. -/
def MonkeyOperation.calculate : MonkeyOperation → Nat → Nat
  | .add n, old => old + n
  | .multiply n, old => old * n
  | .square, old => old * old

/-- `MonkeyTest`. -/
structure MonkeyTest where
  if_divisible_by : Nat
  then_throw_to : Nat
  else_throw_to : Nat
deriving DecidableEq

/-- `MonkeyTest::apply`. -/
def MonkeyTest.apply (t : MonkeyTest) (item : Nat) : Nat :=
  if item % t.if_divisible_by = 0 then t.then_throw_to else t.else_throw_to

/-- `Monkey`. -/
structure Monkey where
  items : List Nat
  operation : MonkeyOperation
  test : MonkeyTest
deriving DecidableEq

/-- `ThrownItem`. -/
structure ThrownItem where
  item : Nat
  thrown_to : Nat
deriving DecidableEq

/-- `Monkey::take_turn_2`: drain all items, apply the operation, reduce
modulo `modulo`, and route by the divisibility test. -/
def Monkey.take_turn_2 (m : Monkey) (modulo : Nat) :
    Monkey × List ThrownItem :=
  ({ m with items := [] },
   m.items.map (fun item =>
     let item2 := m.operation.calculate item % modulo
     { item := item2, thrown_to := m.test.apply item2 }))

/-- The claim's reference semantics: the same turn with unreduced
(unbounded) integer worry levels, i.e. `take_turn_2` without `% modulo`. -/
def Monkey.take_turn_unbounded (m : Monkey) : Monkey × List ThrownItem :=
  ({ m with items := [] },
   m.items.map (fun item =>
     let item2 := m.operation.calculate item
     { item := item2, thrown_to := m.test.apply item2 }))

/-- `monkeys[thrown_to].items.push_back(item)`. -/
def pushItem (ms : List Monkey) (t : ThrownItem) : List Monkey :=
  match ms[t.thrown_to]? with
  | none => ms
  | some mk => ms.set t.thrown_to { mk with items := mk.items ++ [t.item] }

/-- One monkey's turn inside the round loop of `part2`: take the turn,
record the activity, then distribute the thrown items. -/
def runTurn (step : Monkey → Monkey × List ThrownItem)
    (s : List Monkey × List Nat) (i : Nat) : List Monkey × List Nat :=
  match s.1[i]? with
  | none => s
  | some m =>
    let r := step m
    ((r.2.foldl pushItem (s.1.set i r.1)),
     s.2.set i ((s.2[i]?.getD 0) + r.2.length))

/-- One full round: every monkey index in order. -/
def roundFn (step : Monkey → Monkey × List ThrownItem)
    (s : List Monkey × List Nat) : List Monkey × List Nat :=
  (List.range s.1.length).foldl (runTurn step) s

/-- Iterated rounds. -/
def runRounds (step : Monkey → Monkey × List ThrownItem) :
    Nat → (List Monkey × List Nat) → List Monkey × List Nat
  | 0, s => s
  | n + 1, s => runRounds step n (roundFn step s)

/-- The modulus computed by `part2`: the product of all divisibility-test
divisors. -/
def part2_modulo (ms : List Monkey) : Nat :=
  (ms.map (fun m => m.test.if_divisible_by)).prod

/-- The simulation loop of `part2` (monkeys with per-monkey activity
counts, `rounds` rounds, worry levels reduced modulo `part2_modulo`). -/
def part2_simulation (ms : List Monkey) (rounds : Nat) :
    List Monkey × List Nat :=
  runRounds (fun m => m.take_turn_2 (part2_modulo ms)) rounds
    (ms, ms.map (fun _ => 0))

/-- The claim's reference simulation: identical rounds with unreduced
worry levels. -/
def unbounded_simulation (ms : List Monkey) (rounds : Nat) :
    List Monkey × List Nat :=
  runRounds (fun m => m.take_turn_unbounded) rounds (ms, ms.map (fun _ => 0))

/-- Correspondence between a reduced and an unbounded monkey: identical
program, itemwise congruent worry levels. -/
def MonkeyRel (M : Nat) (m1 m2 : Monkey) : Prop :=
  m1.operation = m2.operation ∧ m1.test = m2.test ∧
    List.Forall₂ (Nat.ModEq M) m1.items m2.items

/-- Correspondence between a reduced and an unbounded thrown item: the same
destination monkey, congruent worry levels. -/
def ThrownRel (M : Nat) (t1 t2 : ThrownItem) : Prop :=
  t1.thrown_to = t2.thrown_to ∧ t1.item ≡ t2.item [MOD M]

/-- Correspondence between whole simulation states: related monkeys and
identical activity counts. -/
def StateRel (M : Nat) (s1 s2 : List Monkey × List Nat) : Prop :=
  List.Forall₂ (MonkeyRel M) s1.1 s2.1 ∧ s1.2 = s2.2

/-- Every divisibility-test divisor divides `M`. -/
def DvdAll (M : Nat) (ms : List Monkey) : Prop :=
  ∀ m ∈ ms, m.test.if_divisible_by ∣ M

theorem calculate_modEq (op : MonkeyOperation) {M x y : Nat}
    (h : x ≡ y [MOD M]) : op.calculate x ≡ op.calculate y [MOD M] := by
  cases op with
  | add n => exact h.add_right n
  | multiply n => exact h.mul_right n
  | square => exact h.mul h

theorem apply_congr (t : MonkeyTest) {M x y : Nat}
    (hd : t.if_divisible_by ∣ M) (h : x ≡ y [MOD M]) :
    t.apply x = t.apply y := by
  have hxy : x % t.if_divisible_by = y % t.if_divisible_by :=
    Nat.ModEq.of_dvd hd h
  unfold MonkeyTest.apply
  rw [hxy]

theorem mem_of_getElem?_some {α : Type} {l : List α} {i : Nat} {a : α}
    (h : l[i]? = some a) : a ∈ l := by
  obtain ⟨hlt, rfl⟩ := List.getElem?_eq_some.mp h
  exact List.getElem_mem hlt

theorem forall2_getElem? {α β : Type} {R : α → β → Prop} :
    ∀ {l1 : List α} {l2 : List β}, List.Forall₂ R l1 l2 → ∀ i : Nat,
      (l1[i]? = none ∧ l2[i]? = none) ∨
      (∃ a b, l1[i]? = some a ∧ l2[i]? = some b ∧ R a b) := by
  intro l1 l2 h
  induction h with
  | nil => intro i; left; simp
  | @cons a b t1 t2 hr _ ih =>
    intro i
    cases i with
    | zero =>
      right
      exact ⟨a, b, by simp, by simp, hr⟩
    | succ n =>
      rw [List.getElem?_cons_succ, List.getElem?_cons_succ]
      exact ih n

theorem forall2_set {α β : Type} {R : α → β → Prop} :
    ∀ {l1 : List α} {l2 : List β}, List.Forall₂ R l1 l2 →
      ∀ (i : Nat) a b, R a b → List.Forall₂ R (l1.set i a) (l2.set i b) := by
  intro l1 l2 h
  induction h with
  | nil => intro i a b _; simp [List.Forall₂.nil]
  | @cons x y t1 t2 hr hrest ih =>
    intro i a b hab
    cases i with
    | zero => exact List.Forall₂.cons hab hrest
    | succ n => exact List.Forall₂.cons hr (ih n a b hab)

end Day11

namespace Day11

theorem thrown_rel {M : Nat} (op : MonkeyOperation) (t : MonkeyTest)
    (hd : t.if_divisible_by ∣ M) :
    ∀ {xs ys : List Nat}, List.Forall₂ (Nat.ModEq M) xs ys →
    List.Forall₂ (ThrownRel M)
      (xs.map (fun item =>
        let item2 := op.calculate item % M
        { item := item2, thrown_to := t.apply item2 }))
      (ys.map (fun item =>
        let item2 := op.calculate item
        { item := item2, thrown_to := t.apply item2 })) := by
  intro xs ys h
  induction h with
  | nil => exact List.Forall₂.nil
  | @cons x y xs ys hxy hrest ih =>
    refine List.Forall₂.cons ⟨?_, ?_⟩ ih
    · exact apply_congr t hd ((Nat.mod_modEq _ M).trans (calculate_modEq op hxy))
    · exact (Nat.mod_modEq _ M).trans (calculate_modEq op hxy)

theorem take_turn_rel {M : Nat} {m1 m2 : Monkey} (h : MonkeyRel M m1 m2)
    (hd : m1.test.if_divisible_by ∣ M) :
    MonkeyRel M (m1.take_turn_2 M).1 m2.take_turn_unbounded.1 ∧
    List.Forall₂ (ThrownRel M) (m1.take_turn_2 M).2
      m2.take_turn_unbounded.2 := by
  obtain ⟨hop, htest, hitems⟩ := h
  refine ⟨⟨hop, htest, List.Forall₂.nil⟩, ?_⟩
  show List.Forall₂ _ (m1.items.map _) (m2.items.map _)
  rw [← hop, ← htest]
  exact thrown_rel m1.operation m1.test hd hitems

theorem pushItem_rel {M : Nat} {ms1 ms2 : List Monkey}
    (h : List.Forall₂ (MonkeyRel M) ms1 ms2) {t1 t2 : ThrownItem}
    (ht : ThrownRel M t1 t2) :
    List.Forall₂ (MonkeyRel M) (pushItem ms1 t1) (pushItem ms2 t2) := by
  obtain ⟨hto, hitem⟩ := ht
  unfold pushItem
  rw [← hto]
  rcases forall2_getElem? h t1.thrown_to with ⟨h1, h2⟩ | ⟨a, b, h1, h2, hab⟩
  · rw [h1, h2]; exact h
  · rw [h1, h2]
    dsimp only
    apply forall2_set h
    obtain ⟨hop, htest, hit⟩ := hab
    exact ⟨hop, htest,
      List.rel_append hit (List.Forall₂.cons hitem List.Forall₂.nil)⟩

theorem pushfold_rel {M : Nat} :
    ∀ {ts1 ts2 : List ThrownItem}, List.Forall₂ (ThrownRel M) ts1 ts2 →
    ∀ {ms1 ms2 : List Monkey}, List.Forall₂ (MonkeyRel M) ms1 ms2 →
    List.Forall₂ (MonkeyRel M) (ts1.foldl pushItem ms1)
      (ts2.foldl pushItem ms2) := by
  intro ts1 ts2 h
  induction h with
  | nil => intro ms1 ms2 h; exact h
  | cons hr _ ih => intro ms1 ms2 h; exact ih (pushItem_rel h hr)

theorem pushItem_dvd {M : Nat} {ms : List Monkey} {t : ThrownItem}
    (h : DvdAll M ms) : DvdAll M (pushItem ms t) := by
  intro m' hm'
  unfold pushItem at hm'
  split at hm'
  · exact h m' hm'
  · rename_i mk heq
    rcases List.mem_or_eq_of_mem_set hm' with hmem | rfl
    · exact h m' hmem
    · exact h mk (mem_of_getElem?_some heq)

theorem pushfold_dvd {M : Nat} :
    ∀ (ts : List ThrownItem) {ms : List Monkey}, DvdAll M ms →
      DvdAll M (ts.foldl pushItem ms) := by
  intro ts
  induction ts with
  | nil => intro ms h; exact h
  | cons t ts ih => intro ms h; exact ih (pushItem_dvd h)

theorem runTurn_dvd {M : Nat} {s : List Monkey × List Nat} {i : Nat}
    (h : DvdAll M s.1) :
    DvdAll M (runTurn (fun m => m.take_turn_2 M) s i).1 := by
  unfold runTurn
  cases heq : s.1[i]? with
  | none => exact h
  | some m =>
    dsimp only
    apply pushfold_dvd
    intro m' hm'
    rcases List.mem_or_eq_of_mem_set hm' with hmem | rfl
    · exact h m' hmem
    · exact h m (mem_of_getElem?_some heq)

theorem runTurn_rel {M : Nat} {s1 s2 : List Monkey × List Nat}
    (h : StateRel M s1 s2) (hdvd : DvdAll M s1.1) (i : Nat) :
    StateRel M (runTurn (fun m => m.take_turn_2 M) s1 i)
      (runTurn Monkey.take_turn_unbounded s2 i) := by
  obtain ⟨hms, hact⟩ := h
  rcases forall2_getElem? hms i with ⟨h1, h2⟩ | ⟨m1, m2, h1, h2, hrel⟩
  · unfold runTurn; rw [h1, h2]; exact ⟨hms, hact⟩
  · unfold runTurn
    rw [h1, h2]
    dsimp only
    have hd : m1.test.if_divisible_by ∣ M := hdvd m1 (mem_of_getElem?_some h1)
    obtain ⟨hm, hts⟩ := take_turn_rel hrel hd
    refine ⟨pushfold_rel hts (forall2_set hms i _ _ hm), ?_⟩
    rw [hact, hts.length_eq]

theorem foldlTurns_rel {M : Nat} :
    ∀ (idxs : List Nat) {s1 s2 : List Monkey × List Nat},
      StateRel M s1 s2 → DvdAll M s1.1 →
      StateRel M (idxs.foldl (runTurn (fun m => m.take_turn_2 M)) s1)
        (idxs.foldl (runTurn Monkey.take_turn_unbounded) s2) ∧
      DvdAll M (idxs.foldl (runTurn (fun m => m.take_turn_2 M)) s1).1 := by
  intro idxs
  induction idxs with
  | nil => intro s1 s2 h hd; exact ⟨h, hd⟩
  | cons i idxs ih =>
    intro s1 s2 h hd
    exact ih (runTurn_rel h hd i) (runTurn_dvd hd)

theorem roundFn_rel {M : Nat} {s1 s2 : List Monkey × List Nat}
    (h : StateRel M s1 s2) (hd : DvdAll M s1.1) :
    StateRel M (roundFn (fun m => m.take_turn_2 M) s1)
      (roundFn Monkey.take_turn_unbounded s2) ∧
    DvdAll M (roundFn (fun m => m.take_turn_2 M) s1).1 := by
  have hlen : s1.1.length = s2.1.length := h.1.length_eq
  unfold roundFn
  rw [← hlen]
  exact foldlTurns_rel (List.range s1.1.length) h hd

theorem runRounds_rel {M : Nat} :
    ∀ (n : Nat) {s1 s2 : List Monkey × List Nat},
      StateRel M s1 s2 → DvdAll M s1.1 →
      StateRel M (runRounds (fun m => m.take_turn_2 M) n s1)
        (runRounds Monkey.take_turn_unbounded n s2) ∧
      DvdAll M (runRounds (fun m => m.take_turn_2 M) n s1).1 := by
  intro n
  induction n with
  | zero => intro s1 s2 h hd; exact ⟨h, hd⟩
  | succ n ih =>
    intro s1 s2 h hd
    obtain ⟨h', hd'⟩ := roundFn_rel h hd
    exact ih h' hd'

theorem thrownRel_targets {M : Nat} :
    ∀ {ts1 ts2 : List ThrownItem}, List.Forall₂ (ThrownRel M) ts1 ts2 →
      ts1.map ThrownItem.thrown_to = ts2.map ThrownItem.thrown_to := by
  intro ts1 ts2 h
  induction h with
  | nil => rfl
  | cons hr _ ih => simp [List.map_cons, hr.1, ih]

end Day11

namespace Day11

/-- C9: reducing worry levels modulo the product of all divisibility-test
divisors preserves every routing decision.  Whenever a reduced and an
unbounded monkey hold congruent items, their turns throw to the same
monkeys; and for any number of rounds (10000 included) the reduced
simulation stays itemwise congruent to the unbounded one with identical
per-monkey activity counts. -/
theorem C9_day11_modular_routing (ms : List Monkey) (rounds : Nat)
    (_hpos : ∀ m ∈ ms, 0 < m.test.if_divisible_by)
    (_hrange : ∀ m ∈ ms, m.test.then_throw_to < ms.length ∧
      m.test.else_throw_to < ms.length) :
    (∀ m1 m2, MonkeyRel (part2_modulo ms) m1 m2 →
      m1.test.if_divisible_by ∣ part2_modulo ms →
      (m1.take_turn_2 (part2_modulo ms)).2.map ThrownItem.thrown_to =
        m2.take_turn_unbounded.2.map ThrownItem.thrown_to) ∧
    StateRel (part2_modulo ms) (part2_simulation ms rounds)
      (unbounded_simulation ms rounds) := by
  constructor
  · intro m1 m2 hrel hd
    exact thrownRel_targets (take_turn_rel hrel hd).2
  · unfold part2_simulation unbounded_simulation
    have hinit : StateRel (part2_modulo ms) (ms, ms.map (fun _ => 0))
        (ms, ms.map (fun _ => 0)) := by
      refine ⟨List.forall₂_same.mpr (fun m _ => ⟨rfl, rfl, ?_⟩), rfl⟩
      exact List.forall₂_same.mpr (fun x _ => Nat.ModEq.refl x)
    have hdvd : DvdAll (part2_modulo ms) ms := by
      intro m hm
      exact List.dvd_prod (List.mem_map_of_mem _ hm)
    exact (runRounds_rel rounds hinit hdvd).1

/-- A concrete two-monkey configuration for the C9 witness. -/
def exMonkeys : List Monkey :=
  [{ items := [1, 2], operation := .add 1,
     test := { if_divisible_by := 2, then_throw_to := 1, else_throw_to := 0 } },
   { items := [3], operation := .square,
     test := { if_divisible_by := 3, then_throw_to := 0, else_throw_to := 1 } }]

/-- Witness for C9 at a concrete monkey list and 10000 rounds. -/
theorem C9_day11_modular_routing_w :
    StateRel (part2_modulo exMonkeys) (part2_simulation exMonkeys 10000)
      (unbounded_simulation exMonkeys 10000) :=
  (C9_day11_modular_routing exMonkeys 10000 (by decide) (by decide)).2

end Day11

/-! ## Day 12 (`src/bin/day12.rs`) -/

namespace Day12

/-- `Day12Error`. -/
inductive Day12Error where
  | ioError (e : Aoc.IOError) : Day12Error
  | inconsistentRowWidth : Day12Error
  | noStartPosition : Day12Error
  | noEndPosition : Day12Error
  | noPath : Day12Error
deriving DecidableEq

/-- UTF-8 encoding of a code point, as `str::bytes` iterates it. -/
def utf8Bytes (n : Nat) : List Nat :=
  if n < 128 then [n]
  else if n < 2048 then [192 + n / 64, 128 + n % 64]
  else if n < 65536 then [224 + n / 4096, 128 + n / 64 % 64, 128 + n % 64]
  else [240 + n / 262144, 128 + n / 4096 % 64, 128 + n / 64 % 64,
    128 + n % 64]

/-- The byte sequence of a row (`row.bytes()`); `row.len()` is its length. -/
def rowBytes (s : String) : List Nat :=
  s.data.flatMap (fun c => utf8Bytes c.toNat)

/-- `ElevationMap` (the Rust field `end` is named `endPos` here). -/
structure ElevationMap where
  width : Nat
  height : Nat
  storage : List Nat
  start : Nat × Nat
  endPos : Nat × Nat
deriving DecidableEq

/-- The byte loop of `TryFrom`: push elevations, recording the positions of
`S` (byte 83, elevation `a` = 97) and `E` (byte 69, elevation `z` = 122). -/
def processBytes (y : Nat) :
    Nat → List Nat →
      (List Nat × Option (Nat × Nat) × Option (Nat × Nat)) →
      List Nat × Option (Nat × Nat) × Option (Nat × Nat)
  | _, [], acc => acc
  | x, b :: rest, (storage, startP, endP) =>
    if b = 83 then processBytes y (x + 1) rest (storage ++ [97], some (x, y), endP)
    else if b = 69 then
      processBytes y (x + 1) rest (storage ++ [122], startP, some (x, y))
    else processBytes y (x + 1) rest (storage ++ [b], startP, endP)

/-- The row loop of `TryFrom`, checking that every row has the width of the
first one. -/
def processRows :
    Nat → List (List Nat) →
      (List Nat × Option Nat × Option (Nat × Nat) × Option (Nat × Nat)) →
      Except Day12Error
        (List Nat × Option Nat × Option (Nat × Nat) × Option (Nat × Nat))
  | _, [], acc => .ok acc
  | y, row :: rest, (storage, widthP, startP, endP) =>
    let st := processBytes y 0 row (storage, startP, endP)
    match widthP with
    | none => processRows (y + 1) rest (st.1, some row.length, st.2.1, st.2.2)
    | some w =>
      if w ≠ row.length then .error .inconsistentRowWidth
      else processRows (y + 1) rest (st.1, some w, st.2.1, st.2.2)

/-- `impl TryFrom<&[String]> for ElevationMap`. -/
def try_from (value : List String) : Except Day12Error ElevationMap :=
  match processRows 0 (value.map rowBytes) ([], none, none, none) with
  | .error e => .error e
  | .ok (storage, widthP, startP, endP) =>
    match startP with
    | none => .error .noStartPosition
    | some start =>
      match endP with
      | none => .error .noEndPosition
      | some endPos =>
        .ok { width := widthP.getD 0, height := value.length,
              storage := storage, start := start, endPos := endPos }

/-- `ElevationMap::index_of`. -/
def ElevationMap.index_of (m : ElevationMap) (x y : Nat) : Nat :=
  y * m.width + x

/-- `ElevationMap::get`. -/
def ElevationMap.get (m : ElevationMap) (x y : Nat) : Option Nat :=
  m.storage[m.index_of x y]?

/-- `ElevationMap::neighbours`, in push order. -/
def ElevationMap.neighbours (m : ElevationMap) (p : Nat × Nat) :
    List (Nat × Nat) :=
  (if 0 < p.1 then [(p.1 - 1, p.2)] else []) ++
  (if 0 < p.2 then [(p.1, p.2 - 1)] else []) ++
  (if p.1 + 1 < m.width then [(p.1 + 1, p.2)] else []) ++
  (if p.2 + 1 < m.height then [(p.1, p.2 + 1)] else [])

/-- `ElevationMap::neighbours_with_distances`: adjacent cells whose
elevation is at most one above the current cell's, each with distance 1. -/
def ElevationMap.neighbours_with_distances (m : ElevationMap)
    (p : Nat × Nat) : List ((Nat × Nat) × Nat) :=
  (m.neighbours p).filterMap (fun q =>
    match m.get q.1 q.2, m.get p.1 p.2 with
    | some te, some ce => if te ≤ ce + 1 then some (q, 1) else none
    | _, _ => none)

/-- A queue-extraction policy, modelling `BinaryHeap::pop` whose tie-break
among equal tentative distances is unspecified. -/
def Pop : Type :=
  List ((Nat × Nat) × Nat) →
    Option ((((Nat × Nat) × Nat)) × List ((Nat × Nat) × Nat))

/-- A policy is valid when it extracts a minimal-tentative-distance entry
and returns the remaining multiset. -/
def ValidPop (pop : Pop) : Prop :=
  ∀ q, match pop q with
    | none => q = []
    | some (e, rest) => (e :: rest).Perm q ∧ ∀ f ∈ q, e.2 ≤ f.2

/-- The concrete policy used for computation: the leftmost entry of minimal
tentative distance. -/
def popMinFirst :
    List ((Nat × Nat) × Nat) →
      Option ((((Nat × Nat) × Nat)) × List ((Nat × Nat) × Nat))
  | [] => none
  | e :: rest =>
    match popMinFirst rest with
    | none => some (e, [])
    | some (f, frest) =>
      if e.2 ≤ f.2 then some (e, rest) else some (f, e :: frest)

/-- Association-list lookup for the `previous` map. -/
def lookupA (k : Nat × Nat) :
    List ((Nat × Nat) × (Nat × Nat)) → Option (Nat × Nat)
  | [] => none
  | kv :: rest => if kv.1 = k then some kv.2 else lookupA k rest

/-- `HashMap::contains_key`. -/
def containsA (k : Nat × Nat) (l : List ((Nat × Nat) × (Nat × Nat))) : Bool :=
  (lookupA k l).isSome

/-- `HashMap::remove` (dropping the returned value). -/
def eraseA (k : Nat × Nat) :
    List ((Nat × Nat) × (Nat × Nat)) → List ((Nat × Nat) × (Nat × Nat))
  | [] => []
  | kv :: rest => if kv.1 = k then rest else kv :: eraseA k rest

/-- The back-walk over `previous` that counts the path length; the fuel
`prev.length` is exact because each step removes one entry. -/
def walkAux : Nat → List ((Nat × Nat) × (Nat × Nat)) → Nat × Nat → Nat
  | 0, _, _ => 0
  | f + 1, prev, node =>
    match lookupA node prev with
    | none => 0
    | some p => walkAux f (eraseA node prev) p + 1

/-- Length of the `previous` chain from `node` back to its root. -/
def walkLen (prev : List ((Nat × Nat) × (Nat × Nat))) (node : Nat × Nat) :
    Nat :=
  walkAux prev.length prev node

/-- The body of the neighbour loop: discover `nd.1` from `u` (recording the
predecessor and pushing it with tentative distance `t + nd.2`) unless it is
the start or already discovered. -/
def relaxNeighbour (start u : Nat × Nat) (t : Nat)
    (st : List ((Nat × Nat) × (Nat × Nat)) × List ((Nat × Nat) × Nat))
    (nd : (Nat × Nat) × Nat) :
    List ((Nat × Nat) × (Nat × Nat)) × List ((Nat × Nat) × Nat) :=
  if nd.1 ≠ start ∧ containsA nd.1 st.1 = false then
    ((nd.1, u) :: st.1, st.2 ++ [(nd.1, t + nd.2)])
  else st

/-- The `while let` loop of `length_of_shortest_path`.  The outer `Option`
is fuel exhaustion (proved unreachable from the initial fuel), the inner
one is the function's result. -/
def lenAux (pop : Pop) (m : ElevationMap) (start : Nat × Nat) :
    Nat → List ((Nat × Nat) × Nat) → List ((Nat × Nat) × (Nat × Nat)) →
      Option (Option Nat)
  | 0, queue, prev =>
    match pop queue with
    | none => some none
    | some (e, _) =>
      if e.1 = m.endPos then some (some (walkLen prev e.1)) else none
  | fuel + 1, queue, prev =>
    match pop queue with
    | none => some none
    | some (e, rest) =>
      if e.1 = m.endPos then some (some (walkLen prev e.1))
      else
        let st := (m.neighbours_with_distances e.1).foldl
          (relaxNeighbour start e.1 e.2) (prev, rest)
        lenAux pop m start fuel st.2 st.1

/-- `length_of_shortest_path` under an arbitrary valid heap policy. -/
def length_of_shortest_path_with (pop : Pop) (m : ElevationMap)
    (start : Nat × Nat) : Option Nat :=
  (lenAux pop m start (m.width * m.height + 1) [(start, 0)] []).getD none

/-- `ElevationMap::length_of_shortest_path`. -/
def ElevationMap.length_of_shortest_path (m : ElevationMap)
    (start : Nat × Nat) : Option Nat :=
  length_of_shortest_path_with popMinFirst m start

/-- `part1` (`try_into().unwrap()` panics on a parse error: `none`). -/
def part1 (input : List String) : Option (Except Day12Error Nat) :=
  match try_from input with
  | .error _ => none
  | .ok map =>
    some (match map.length_of_shortest_path map.start with
          | some l => .ok l
          | none => .error .noPath)

/-- `part2` (`try_into().unwrap()` panics on a parse error: `none`). -/
def part2 (input : List String) : Option (Except Day12Error Nat) :=
  match try_from input with
  | .error _ => none
  | .ok map =>
    let positions := (List.range map.width).flatMap
      (fun x => (List.range map.height).map (fun y => (x, y)))
    let lengths := (positions.filter
        (fun p => decide (map.get p.1 p.2 = some 97))).filterMap
      (fun p => map.length_of_shortest_path p)
    some (match lengths.min? with
          | some l => .ok l
          | none => .error .noPath)

/-- `main` for day 12, with its effect trace. -/
def main (fs : Aoc.Fs) :
    Option (Except Day12Error Unit) × List Aoc.Event :=
  match Aoc.read_lines fs "inputs/day12.txt" with
  | .error e => (some (.error (.ioError e)), [.readFile "inputs/day12.txt"])
  | .ok input =>
    match part1 input with
    | none => (none, [.readFile "inputs/day12.txt"])
    | some (.error e) => (some (.error e), [.readFile "inputs/day12.txt"])
    | some (.ok v1) =>
      match part2 input with
      | none => (none, [.readFile "inputs/day12.txt",
          .printLine ("Part 1: " ++ toString v1)])
      | some (.error e) => (some (.error e), [.readFile "inputs/day12.txt",
          .printLine ("Part 1: " ++ toString v1)])
      | some (.ok v2) => (some (.ok ()), [.readFile "inputs/day12.txt",
          .printLine ("Part 1: " ++ toString v1),
          .printLine ("Part 2: " ++ toString v2)])

/-- Membership in the rectangular grid. -/
def InGrid (m : ElevationMap) (p : Nat × Nat) : Prop :=
  p.1 < m.width ∧ p.2 < m.height

/-- The move relation of the climb: exactly the targets produced by
`neighbours_with_distances`. -/
def Edge (m : ElevationMap) (u v : Nat × Nat) : Prop :=
  ∃ d, (v, d) ∈ m.neighbours_with_distances u

/-- A walk of `n` unit steps through `Edge`. -/
inductive Steps (m : ElevationMap) : Nat → Nat × Nat → Nat × Nat → Prop where
  | refl (p : Nat × Nat) : Steps m 0 p p
  | step {u v w : Nat × Nat} {n : Nat} :
      Edge m u v → Steps m n v w → Steps m (n + 1) u w

/-- `n` is the minimal number of steps from `s` to `p`. -/
def minSteps (m : ElevationMap) (s p : Nat × Nat) (n : Nat) : Prop :=
  Steps m n s p ∧ ∀ k, Steps m k s p → n ≤ k

/-- A well-formed elevation map: rectangular storage, start and end cells
inside the grid, and elevations below 255 (so that the `u8` increment in
the climb rule cannot wrap; any map parsed from UTF-8 text satisfies
this). -/
def WellFormed (m : ElevationMap) : Prop :=
  m.storage.length = m.width * m.height ∧ InGrid m m.start ∧
    InGrid m m.endPos ∧ ∀ b ∈ m.storage, b < 255

instance (m : ElevationMap) : Decidable (WellFormed m) :=
  decidable_of_iff
    (m.storage.length = m.width * m.height ∧
      (m.start.1 < m.width ∧ m.start.2 < m.height) ∧
      (m.endPos.1 < m.width ∧ m.endPos.2 < m.height) ∧
      ∀ b ∈ m.storage, b < 255) Iff.rfl

end Day12

example : Day12.part1 ["SE"] = some (.error .noPath) := by rfl

example : Day12.part1 ["ab"] = none := by rfl

example :
    Day12.try_from ["Sa", "bE"] =
      .ok { width := 2, height := 2, storage := [97, 97, 98, 122],
            start := (0, 0), endPos := (1, 1) } := by rfl

namespace Day12

/-- A second valid policy: the rightmost entry of minimal tentative
distance. -/
def popMinLast :
    List ((Nat × Nat) × Nat) →
      Option ((((Nat × Nat) × Nat)) × List ((Nat × Nat) × Nat))
  | [] => none
  | e :: rest =>
    match popMinLast rest with
    | none => some (e, [])
    | some (f, frest) =>
      if e.2 < f.2 then some (e, rest) else some (f, e :: frest)

theorem popMinFirst_valid : ValidPop popMinFirst := by
  intro q
  induction q with
  | nil => simp [popMinFirst]
  | cons e rest ih =>
    show (match popMinFirst (e :: rest) with
          | none => e :: rest = []
          | some (f, frest) => (f :: frest).Perm (e :: rest) ∧
              ∀ g ∈ e :: rest, f.2 ≤ g.2)
    cases h : popMinFirst rest with
    | none =>
      rw [h] at ih
      simp only at ih
      subst ih
      simp [popMinFirst]
    | some fr =>
      obtain ⟨f, frest⟩ := fr
      rw [h] at ih
      simp only at ih
      obtain ⟨hperm, hmin⟩ := ih
      by_cases hef : e.2 ≤ f.2
      · simp only [popMinFirst, h, if_pos hef]
        refine ⟨List.Perm.refl _, ?_⟩
        intro g hg
        rcases List.mem_cons.mp hg with rfl | hg
        · exact Nat.le_refl _
        · exact Nat.le_trans hef (hmin g hg)
      · simp only [popMinFirst, h, if_neg hef]
        constructor
        · exact (List.Perm.swap e f frest).trans (hperm.cons e)
        · intro g hg
          rcases List.mem_cons.mp hg with rfl | hg
          · omega
          · exact hmin g hg

theorem popMinLast_valid : ValidPop popMinLast := by
  intro q
  induction q with
  | nil => simp [popMinLast]
  | cons e rest ih =>
    show (match popMinLast (e :: rest) with
          | none => e :: rest = []
          | some (f, frest) => (f :: frest).Perm (e :: rest) ∧
              ∀ g ∈ e :: rest, f.2 ≤ g.2)
    cases h : popMinLast rest with
    | none =>
      rw [h] at ih
      simp only at ih
      subst ih
      simp [popMinLast]
    | some fr =>
      obtain ⟨f, frest⟩ := fr
      rw [h] at ih
      simp only at ih
      obtain ⟨hperm, hmin⟩ := ih
      by_cases hef : e.2 < f.2
      · simp only [popMinLast, h, if_pos hef]
        refine ⟨List.Perm.refl _, ?_⟩
        intro g hg
        rcases List.mem_cons.mp hg with rfl | hg
        · exact Nat.le_refl _
        · exact Nat.le_trans (Nat.le_of_lt hef) (hmin g hg)
      · simp only [popMinLast, h, if_neg hef]
        constructor
        · exact (List.Perm.swap e f frest).trans (hperm.cons e)
        · intro g hg
          rcases List.mem_cons.mp hg with rfl | hg
          · omega
          · exact hmin g hg

end Day12

namespace Day12

theorem mem_guard {α : Type} {c : Prop} [Decidable c] {x q : α}
    (h : q ∈ if c then [x] else []) : c ∧ q = x := by
  by_cases hc : c
  · rw [if_pos hc] at h
    simp at h
    exact ⟨hc, h⟩
  · rw [if_neg hc] at h
    simp at h

theorem neighbours_inGrid {m : ElevationMap} {p : Nat × Nat}
    (hp : InGrid m p) {q : Nat × Nat} (hq : q ∈ m.neighbours p) :
    InGrid m q := by
  obtain ⟨h1, h2⟩ := hp
  unfold ElevationMap.neighbours at hq
  rcases List.mem_append.mp hq with hq' | hq'
  · rcases List.mem_append.mp hq' with hq2 | hq2
    · rcases List.mem_append.mp hq2 with hq3 | hq3
      · obtain ⟨hc, rfl⟩ := mem_guard hq3
        exact ⟨by omega, by omega⟩
      · obtain ⟨hc, rfl⟩ := mem_guard hq3
        exact ⟨by omega, by omega⟩
    · obtain ⟨hc, rfl⟩ := mem_guard hq2
      exact ⟨by omega, by omega⟩
  · obtain ⟨hc, rfl⟩ := mem_guard hq'
    exact ⟨by omega, by omega⟩

theorem nwd_shape {m : ElevationMap} {p : Nat × Nat}
    {nd : (Nat × Nat) × Nat} (h : nd ∈ m.neighbours_with_distances p) :
    nd.2 = 1 ∧ nd.1 ∈ m.neighbours p := by
  simp only [ElevationMap.neighbours_with_distances, List.mem_filterMap]
    at h
  obtain ⟨q, hq, heq⟩ := h
  rcases hg1 : m.get q.1 q.2 with _ | te <;>
    rcases hg2 : m.get p.1 p.2 with _ | ce <;>
    rw [hg1, hg2] at heq <;> simp only at heq
  · exact absurd heq (by simp)
  · exact absurd heq (by simp)
  · exact absurd heq (by simp)
  · by_cases hle : te ≤ ce + 1
    · rw [if_pos hle] at heq
      have hinj : (q, 1) = nd := Option.some.inj heq
      rw [← hinj]
      exact ⟨rfl, hq⟩
    · rw [if_neg hle] at heq
      exact absurd heq (by simp)

theorem edge_inGrid {m : ElevationMap} {u v : Nat × Nat}
    (hu : InGrid m u) (h : Edge m u v) : InGrid m v := by
  obtain ⟨d, hd⟩ := h
  exact neighbours_inGrid hu (nwd_shape hd).2

theorem edge_of_nwd {m : ElevationMap} {p : Nat × Nat}
    {nd : (Nat × Nat) × Nat} (h : nd ∈ m.neighbours_with_distances p) :
    Edge m p nd.1 := ⟨nd.2, h⟩

theorem steps_snoc {m : ElevationMap} {n : Nat} {s w v : Nat × Nat}
    (h : Steps m n s w) (he : Edge m w v) : Steps m (n + 1) s v := by
  induction h with
  | refl p => exact Steps.step he (Steps.refl v)
  | step hu _ ih => exact Steps.step hu (ih he)

theorem steps_last {m : ElevationMap} {n : Nat} {s v : Nat × Nat}
    (h : Steps m (n + 1) s v) : ∃ w, Steps m n s w ∧ Edge m w v := by
  induction n generalizing s with
  | zero =>
    cases h with
    | step he h2 =>
      cases h2 with
      | refl => exact ⟨s, Steps.refl s, he⟩
  | succ k ih =>
    cases h with
    | step he h2 =>
      obtain ⟨w, hw, hwe⟩ := ih h2
      exact ⟨w, Steps.step he hw, hwe⟩

theorem steps_inGrid {m : ElevationMap} {n : Nat} {s p : Nat × Nat}
    (h : Steps m n s p) (hs : InGrid m s) : InGrid m p := by
  induction h with
  | refl p => exact hs
  | step he _ ih => exact ih (edge_inGrid hs he)

end Day12

namespace Day12

theorem minSteps_unique {m : ElevationMap} {s p : Nat × Nat} {a b : Nat}
    (h1 : minSteps m s p a) (h2 : minSteps m s p b) : a = b :=
  Nat.le_antisymm (h1.2 b h2.1) (h2.2 a h1.1)

theorem exists_minSteps {m : ElevationMap} {s p : Nat × Nat}
    (h : ∃ n, Steps m n s p) : ∃ k, minSteps m s p k := by
  obtain ⟨n, hn⟩ := h
  revert hn
  induction n using Nat.strong_induction_on with
  | _ n IH =>
    intro hn
    by_cases hex : ∃ k, k < n ∧ Steps m k s p
    · obtain ⟨k, hk, hks⟩ := hex
      exact IH k hk hks
    · refine ⟨n, hn, ?_⟩
      intro j hj
      by_contra hlt
      exact hex ⟨j, by omega, hj⟩

theorem minSteps_start {m : ElevationMap} {s : Nat × Nat} {n : Nat}
    (h : minSteps m s s n) : n = 0 :=
  Nat.le_antisymm (h.2 0 (Steps.refl s)) (Nat.zero_le n)

theorem minSteps_self (m : ElevationMap) (s : Nat × Nat) :
    minSteps m s s 0 := ⟨Steps.refl s, fun k _ => Nat.zero_le k⟩

theorem nodup_grid_length {w h : Nat} {l : List (Nat × Nat)}
    (hnd : l.Nodup) (hg : ∀ p ∈ l, p.1 < w ∧ p.2 < h) :
    l.length ≤ w * h := by
  have hsub : l.toFinset ⊆ Finset.range w ×ˢ Finset.range h := by
    intro p hp
    rw [List.mem_toFinset] at hp
    obtain ⟨h1, h2⟩ := hg p hp
    simp only [Finset.mem_product, Finset.mem_range]
    exact ⟨h1, h2⟩
  calc l.length = l.toFinset.card := (List.toFinset_card_of_nodup hnd).symm
    _ ≤ (Finset.range w ×ˢ Finset.range h).card := Finset.card_le_card hsub
    _ = w * h := by
        rw [Finset.card_product, Finset.card_range, Finset.card_range]

theorem lookupA_some_mem {k v : Nat × Nat}
    {l : List ((Nat × Nat) × (Nat × Nat))} (h : lookupA k l = some v) :
    (k, v) ∈ l := by
  induction l with
  | nil => exact absurd h (by simp [lookupA])
  | cons kv rest ih =>
    unfold lookupA at h
    by_cases hk : kv.1 = k
    · rw [if_pos hk] at h
      have hv := Option.some.inj h
      have : (k, v) = kv := by
        rw [← hk, ← hv]
      rw [this]
      exact List.mem_cons_self kv rest
    · rw [if_neg hk] at h
      exact List.mem_cons_of_mem kv (ih h)

theorem lookupA_isSome_iff {k : Nat × Nat}
    {l : List ((Nat × Nat) × (Nat × Nat))} :
    (lookupA k l).isSome = true ↔ k ∈ l.map Prod.fst := by
  induction l with
  | nil => simp [lookupA]
  | cons kv rest ih =>
    unfold lookupA
    by_cases hk : kv.1 = k
    · simp [if_pos hk, hk]
    · rw [if_neg hk]
      simp only [List.map_cons, List.mem_cons]
      rw [ih]
      constructor
      · intro h
        right
        exact h
      · intro h
        rcases h with h | h
        · exact absurd h.symm hk
        · exact h

theorem lookupA_none {k : Nat × Nat} {l : List ((Nat × Nat) × (Nat × Nat))}
    (h : k ∉ l.map Prod.fst) : lookupA k l = none := by
  cases hl : lookupA k l with
  | none => rfl
  | some v =>
    exact absurd (lookupA_isSome_iff.mp (by rw [hl]; rfl)) h

theorem eraseA_sublist (k : Nat × Nat) :
    ∀ l : List ((Nat × Nat) × (Nat × Nat)), (eraseA k l).Sublist l := by
  intro l
  induction l with
  | nil => exact List.Sublist.refl []
  | cons kv rest ih =>
    unfold eraseA
    by_cases hk : kv.1 = k
    · rw [if_pos hk]
      exact List.sublist_cons_self kv rest
    · rw [if_neg hk]
      exact ih.cons₂ kv

theorem eraseA_length {k : Nat × Nat}
    {l : List ((Nat × Nat) × (Nat × Nat))} (h : k ∈ l.map Prod.fst) :
    (eraseA k l).length + 1 = l.length := by
  induction l with
  | nil => simp at h
  | cons kv rest ih =>
    unfold eraseA
    by_cases hk : kv.1 = k
    · rw [if_pos hk]
      simp
    · rw [if_neg hk]
      simp only [List.length_cons]
      rw [← ih]
      simp only [List.map_cons, List.mem_cons] at h
      rcases h with h | h
      · exact absurd h.symm hk
      · exact h

theorem mem_keys_eraseA_of_ne {k k' : Nat × Nat}
    {l : List ((Nat × Nat) × (Nat × Nat))} (hne : k' ≠ k) :
    k' ∈ (eraseA k l).map Prod.fst ↔ k' ∈ l.map Prod.fst := by
  induction l with
  | nil => simp [eraseA]
  | cons kv rest ih =>
    unfold eraseA
    by_cases hk : kv.1 = k
    · rw [if_pos hk]
      simp only [List.map_cons, List.mem_cons]
      constructor
      · intro h
        right
        exact h
      · intro h
        rcases h with h | h
        · rw [hk] at h
          exact absurd h hne
        · exact h
    · rw [if_neg hk]
      simp only [List.map_cons, List.mem_cons]
      rw [ih]

end Day12

namespace Day12

theorem walkAux_eq (m : ElevationMap) (s : Nat × Nat)
    (P : List ((Nat × Nat) × (Nat × Nat)))
    (hPdist : ∀ kv ∈ P, ∃ j, minSteps m s kv.2 j ∧ minSteps m s kv.1 (j + 1))
    (hPparent : ∀ kv ∈ P, kv.2 = s ∨ kv.2 ∈ P.map Prod.fst)
    (hPs : s ∉ P.map Prod.fst) :
    ∀ n, ∀ (node : Nat × Nat) (pr : List ((Nat × Nat) × (Nat × Nat))),
      (∀ kv ∈ pr, kv ∈ P) →
      (∀ kv ∈ P, kv.1 ∉ pr.map Prod.fst →
        ∀ j, minSteps m s kv.1 j → n < j) →
      minSteps m s node n → (node = s ∨ node ∈ pr.map Prod.fst) →
      ∀ f, pr.length ≤ f → walkAux f pr node = n := by
  intro n
  induction n using Nat.strong_induction_on with
  | _ n IH =>
    intro node pr hsub hbound hmin hdisc f _hf
    rcases hdisc with rfl | hmem
    · have hnotin : node ∉ pr.map Prod.fst := by
        intro hc
        apply hPs
        obtain ⟨kv, hkv, hkveq⟩ := List.mem_map.mp hc
        exact List.mem_map.mpr ⟨kv, hsub kv hkv, hkveq⟩
      have hnone : lookupA node pr = none := lookupA_none hnotin
      have hn0 : n = 0 := minSteps_start hmin
      subst hn0
      cases f with
      | zero => rfl
      | succ f => unfold walkAux; rw [hnone]
    · obtain ⟨u, hu⟩ := Option.isSome_iff_exists.mp
        (lookupA_isSome_iff.mpr hmem)
      have hkvP : (node, u) ∈ P := hsub _ (lookupA_some_mem hu)
      obtain ⟨j, hju, hjnode⟩ := hPdist _ hkvP
      have hn : n = j + 1 := minSteps_unique hmin hjnode
      have hprne : 1 ≤ pr.length := by
        cases pr with
        | nil => simp at hmem
        | cons kv rest => simp
      obtain ⟨f', rfl⟩ : ∃ f', f = f' + 1 := ⟨f - 1, by omega⟩
      have hstep0 : walkAux (f' + 1) pr node =
          match lookupA node pr with
          | none => 0
          | some p => walkAux f' (eraseA node pr) p + 1 := rfl
      rw [hu] at hstep0
      have hstep : walkAux (f' + 1) pr node =
          walkAux f' (eraseA node pr) u + 1 := hstep0
      have herase_len : (eraseA node pr).length + 1 = pr.length :=
        eraseA_length hmem
      have hrec : walkAux f' (eraseA node pr) u = j := by
        apply IH j (by omega) u (eraseA node pr)
        · intro kv hkv
          exact hsub kv ((eraseA_sublist node pr).subset hkv)
        · intro kv hkvP2 hkey jj hjj
          by_cases hkv_in_pr : kv.1 ∈ pr.map Prod.fst
          · have hkvnode : kv.1 = node := by
              by_contra hne
              exact hkey ((mem_keys_eraseA_of_ne hne).mpr hkv_in_pr)
            rw [hkvnode] at hjj
            have := minSteps_unique hjj hmin
            omega
          · have := hbound kv hkvP2 hkv_in_pr jj hjj
            omega
        · exact hju
        · rcases hPparent _ hkvP with hus | huP
          · left
            exact hus
          · right
            by_cases huin : u ∈ (eraseA node pr).map Prod.fst
            · exact huin
            · exfalso
              by_cases hu_pr : u ∈ pr.map Prod.fst
              · have hunode : u = node := by
                  by_contra hne
                  exact huin ((mem_keys_eraseA_of_ne hne).mpr hu_pr)
                rw [hunode] at hju
                have := minSteps_unique hju hmin
                omega
              · obtain ⟨kv, hkv, hkveq⟩ := List.mem_map.mp huP
                have := hbound kv hkv (by rw [hkveq]; exact hu_pr) j
                  (by rw [hkveq]; exact hju)
                omega
        · omega
      rw [hstep, hrec]
      omega

theorem walkLen_eq (m : ElevationMap) (s : Nat × Nat)
    (prev : List ((Nat × Nat) × (Nat × Nat)))
    (hPdist : ∀ kv ∈ prev,
      ∃ j, minSteps m s kv.2 j ∧ minSteps m s kv.1 (j + 1))
    (hPparent : ∀ kv ∈ prev, kv.2 = s ∨ kv.2 ∈ prev.map Prod.fst)
    (hPs : s ∉ prev.map Prod.fst) {node : Nat × Nat} {n : Nat}
    (hmin : minSteps m s node n)
    (hdisc : node = s ∨ node ∈ prev.map Prod.fst) :
    walkLen prev node = n := by
  apply walkAux_eq m s prev hPdist hPparent hPs n node prev
    (fun kv hkv => hkv) ?_ hmin hdisc prev.length (Nat.le_refl _)
  intro kv hkv hkey
  exact absurd (List.mem_map.mpr ⟨kv, hkv, rfl⟩) hkey

end Day12

namespace Day12

/-- Loop invariant of the search: `prev` is a parent forest rooted at `s`
whose nodes carry their exact shortest distances, the queue holds exactly
the discovered-but-unprocessed nodes with exact shortest tentative
distances, processed nodes have all successors discovered, and the end is
never processed without returning. -/
structure Inv (m : ElevationMap) (s : Nat × Nat)
    (queue : List ((Nat × Nat) × Nat))
    (prev : List ((Nat × Nat) × (Nat × Nat))) : Prop where
  qGrid : ∀ e ∈ queue, InGrid m e.1
  qNodup : (queue.map Prod.fst).Nodup
  qDisc : ∀ e ∈ queue, e.1 = s ∨ e.1 ∈ prev.map Prod.fst
  qMin : ∀ e ∈ queue, minSteps m s e.1 e.2
  pNodup : (prev.map Prod.fst).Nodup
  pGrid : ∀ kv ∈ prev, InGrid m kv.1
  pStart : s ∉ prev.map Prod.fst
  pDist : ∀ kv ∈ prev, ∃ j, minSteps m s kv.2 j ∧ minSteps m s kv.1 (j + 1)
  pParent : ∀ kv ∈ prev, kv.2 = s ∨ kv.2 ∈ prev.map Prod.fst
  closed : ∀ w, (w = s ∨ w ∈ prev.map Prod.fst) → w ∉ queue.map Prod.fst →
    ∀ v, Edge m w v → v = s ∨ v ∈ prev.map Prod.fst
  endQ : (m.endPos = s ∨ m.endPos ∈ prev.map Prod.fst) →
    m.endPos ∈ queue.map Prod.fst

/-- Invariant of the neighbour loop while processing the popped node `u`
with exact distance `t`; `rem` is the unprocessed suffix of `u`'s
neighbour list. -/
structure MidInv (m : ElevationMap) (s u : Nat × Nat) (t : Nat)
    (rem : List ((Nat × Nat) × Nat))
    (queue : List ((Nat × Nat) × Nat))
    (prev : List ((Nat × Nat) × (Nat × Nat))) : Prop where
  qGrid : ∀ e ∈ queue, InGrid m e.1
  qNodup : (queue.map Prod.fst).Nodup
  qDisc : ∀ e ∈ queue, e.1 = s ∨ e.1 ∈ prev.map Prod.fst
  qMin : ∀ e ∈ queue, minSteps m s e.1 e.2
  qGE : ∀ e ∈ queue, t ≤ e.2
  pNodup : (prev.map Prod.fst).Nodup
  pGrid : ∀ kv ∈ prev, InGrid m kv.1
  pStart : s ∉ prev.map Prod.fst
  pDist : ∀ kv ∈ prev, ∃ j, minSteps m s kv.2 j ∧ minSteps m s kv.1 (j + 1)
  pParent : ∀ kv ∈ prev, kv.2 = s ∨ kv.2 ∈ prev.map Prod.fst
  uGrid : InGrid m u
  uDisc : u = s ∨ u ∈ prev.map Prod.fst
  uNotQ : u ∉ queue.map Prod.fst
  uMin : minSteps m s u t
  uNotEnd : u ≠ m.endPos
  closedX : ∀ w, (w = s ∨ w ∈ prev.map Prod.fst) → w ∉ queue.map Prod.fst →
    w ≠ u → ∀ v, Edge m w v → v = s ∨ v ∈ prev.map Prod.fst
  cover : ∀ v, Edge m u v → (v = s ∨ v ∈ prev.map Prod.fst) ∨
    ∃ d, (v, d) ∈ rem
  endQ : (m.endPos = s ∨ m.endPos ∈ prev.map Prod.fst) →
    m.endPos ∈ queue.map Prod.fst

theorem crossing_empty {m : ElevationMap} {s : Nat × Nat}
    {prev : List ((Nat × Nat) × (Nat × Nat))} (inv : Inv m s [] prev) :
    ∀ (n : Nat) (p : Nat × Nat), Steps m n s p →
      p = s ∨ p ∈ prev.map Prod.fst := by
  intro n
  induction n with
  | zero =>
    intro p hp
    cases hp
    left
    rfl
  | succ k ih =>
    intro p hp
    obtain ⟨w, hw, hwe⟩ := steps_last hp
    exact inv.closed w (ih w hw) (by simp) p hwe

theorem crossing_mid {m : ElevationMap} {s u : Nat × Nat} {t : Nat}
    {rem queue : List ((Nat × Nat) × Nat)}
    {prev : List ((Nat × Nat) × (Nat × Nat))}
    (inv : MidInv m s u t rem queue prev) :
    ∀ (n : Nat) (p : Nat × Nat), minSteps m s p n →
      ¬(p = s ∨ p ∈ prev.map Prod.fst) → t < n := by
  intro n
  induction n using Nat.strong_induction_on with
  | _ n IH =>
    intro p hmin hpD
    cases n with
    | zero =>
      cases hmin.1
      exact absurd (Or.inl rfl) hpD
    | succ k =>
      obtain ⟨w, hw, hwe⟩ := steps_last hmin.1
      obtain ⟨dw, hdw⟩ := exists_minSteps ⟨k, hw⟩
      have hdwk : dw ≤ k := hdw.2 k hw
      by_cases hwD : w = s ∨ w ∈ prev.map Prod.fst
      · by_cases hwQ : w ∈ queue.map Prod.fst
        · obtain ⟨e, he, heq⟩ := List.mem_map.mp hwQ
          have hek : minSteps m s e.1 e.2 := inv.qMin e he
          rw [heq] at hek
          have hedw : e.2 = dw := minSteps_unique hek hdw
          have hte := inv.qGE e he
          omega
        · by_cases hwu : w = u
          · have hdt : dw = t := by
              rw [hwu] at hdw
              exact minSteps_unique hdw inv.uMin
            omega
          · exact absurd (inv.closedX w hwD hwQ hwu p hwe) hpD
      · have := IH dw (by omega) w hdw hwD
        omega

theorem discover_minSteps {m : ElevationMap} {s u : Nat × Nat} {t : Nat}
    {rem queue : List ((Nat × Nat) × Nat)}
    {prev : List ((Nat × Nat) × (Nat × Nat))}
    (inv : MidInv m s u t rem queue prev) {v : Nat × Nat}
    (hedge : Edge m u v) (hvD : ¬(v = s ∨ v ∈ prev.map Prod.fst)) :
    minSteps m s v (t + 1) := by
  have hup : Steps m (t + 1) s v := steps_snoc inv.uMin.1 hedge
  obtain ⟨dv, hdv⟩ := exists_minSteps ⟨t + 1, hup⟩
  have hlt : t < dv := crossing_mid inv dv v hdv hvD
  refine ⟨hup, ?_⟩
  intro k hk
  have := hdv.2 k hk
  omega

end Day12

namespace Day12

theorem fold_step {m : ElevationMap} {s u : Nat × Nat} {t : Nat}
    {nd : (Nat × Nat) × Nat} {rem queue : List ((Nat × Nat) × Nat)}
    {prev : List ((Nat × Nat) × (Nat × Nat))}
    (inv : MidInv m s u t (nd :: rem) queue prev)
    (hnd : nd ∈ m.neighbours_with_distances u) :
    MidInv m s u t rem (relaxNeighbour s u t (prev, queue) nd).2
      (relaxNeighbour s u t (prev, queue) nd).1 ∧
    (relaxNeighbour s u t (prev, queue) nd).2.length + prev.length =
      queue.length + (relaxNeighbour s u t (prev, queue) nd).1.length := by
  unfold relaxNeighbour
  by_cases hguard : nd.1 ≠ s ∧ containsA nd.1 prev = false
  · rw [if_pos hguard]
    dsimp only
    have hvD : ¬(nd.1 = s ∨ nd.1 ∈ prev.map Prod.fst) := by
      rintro (h | h)
      · exact hguard.1 h
      · have hc : containsA nd.1 prev = true := lookupA_isSome_iff.mpr h
        rw [hguard.2] at hc
        exact Bool.noConfusion hc
    have hedge : Edge m u nd.1 := edge_of_nwd hnd
    have hmin_v : minSteps m s nd.1 (t + 1) :=
      discover_minSteps inv hedge hvD
    have hd1 : nd.2 = 1 := (nwd_shape hnd).1
    have hvGrid : InGrid m nd.1 := edge_inGrid inv.uGrid hedge
    have hvNotQ : nd.1 ∉ queue.map Prod.fst := by
      intro hc
      obtain ⟨e, he, heq⟩ := List.mem_map.mp hc
      exact hvD (by rw [← heq]; exact inv.qDisc e he)
    have hvnu : nd.1 ≠ u := by
      intro hc
      exact hvD (by rw [hc]; exact inv.uDisc)
    refine ⟨⟨?_, ?_, ?_, ?_, ?_, ?_, ?_, ?_, ?_, ?_, inv.uGrid, ?_, ?_,
      inv.uMin, inv.uNotEnd, ?_, ?_, ?_⟩, ?_⟩
    · intro e he
      rcases List.mem_append.mp he with he | he
      · exact inv.qGrid e he
      · simp only [List.mem_singleton] at he
        rw [he]
        exact hvGrid
    · rw [List.map_append]
      refine List.Nodup.append inv.qNodup (by simp) ?_
      intro a ha hb
      simp only [List.map_cons, List.map_nil, List.mem_singleton] at hb
      rw [hb] at ha
      exact hvNotQ ha
    · intro e he
      rcases List.mem_append.mp he with he | he
      · rcases inv.qDisc e he with h | h
        · left; exact h
        · right; exact List.mem_cons_of_mem _ h
      · simp only [List.mem_singleton] at he
        right
        rw [he]
        exact List.mem_cons_self _ _
    · intro e he
      rcases List.mem_append.mp he with he | he
      · exact inv.qMin e he
      · simp only [List.mem_singleton] at he
        rw [he]
        show minSteps m s nd.1 (t + nd.2)
        rw [hd1]
        exact hmin_v
    · intro e he
      rcases List.mem_append.mp he with he | he
      · exact inv.qGE e he
      · simp only [List.mem_singleton] at he
        rw [he]
        omega
    · rw [List.map_cons]
      refine List.Nodup.cons ?_ inv.pNodup
      intro hc
      exact hvD (Or.inr hc)
    · intro kv hkv
      rcases List.mem_cons.mp hkv with rfl | hkv
      · exact hvGrid
      · exact inv.pGrid kv hkv
    · rw [List.map_cons]
      intro hc
      rcases List.mem_cons.mp hc with hc | hc
      · exact hguard.1 hc.symm
      · exact inv.pStart hc
    · intro kv hkv
      rcases List.mem_cons.mp hkv with rfl | hkv
      · exact ⟨t, inv.uMin, hmin_v⟩
      · exact inv.pDist kv hkv
    · intro kv hkv
      rcases List.mem_cons.mp hkv with rfl | hkv
      · rcases inv.uDisc with h | h
        · left; exact h
        · right
          rw [List.map_cons]
          exact List.mem_cons_of_mem _ h
      · rcases inv.pParent kv hkv with h | h
        · left; exact h
        · right
          rw [List.map_cons]
          exact List.mem_cons_of_mem _ h
    · rcases inv.uDisc with h | h
      · left; exact h
      · right
        rw [List.map_cons]
        exact List.mem_cons_of_mem _ h
    · rw [List.map_append]
      intro hc
      rcases List.mem_append.mp hc with hc | hc
      · exact inv.uNotQ hc
      · simp only [List.map_cons, List.map_nil, List.mem_singleton] at hc
        exact hvnu hc.symm
    · intro w hwD hwQ hwu v hv
      have hwD2 : w = s ∨ w ∈ prev.map Prod.fst := by
        rcases hwD with h | h
        · left; exact h
        · rw [List.map_cons] at h
          rcases List.mem_cons.mp h with h | h
          · exfalso
            apply hwQ
            rw [List.map_append, h]
            simp
          · right; exact h
      have hwQ2 : w ∉ queue.map Prod.fst := by
        intro hc
        apply hwQ
        rw [List.map_append]
        exact List.mem_append_left _ hc
      rcases inv.closedX w hwD2 hwQ2 hwu v hv with h | h
      · left; exact h
      · right
        rw [List.map_cons]
        exact List.mem_cons_of_mem _ h
    · intro v hv
      rcases inv.cover v hv with h | ⟨d, hd⟩
      · left
        rcases h with h | h
        · left; exact h
        · right
          rw [List.map_cons]
          exact List.mem_cons_of_mem _ h
      · rcases List.mem_cons.mp hd with heq | hd
        · left
          right
          rw [List.map_cons]
          have : v = nd.1 := congrArg Prod.fst heq
          rw [this]
          exact List.mem_cons_self _ _
        · right
          exact ⟨d, hd⟩
    · intro hD
      rw [List.map_append]
      have hD2 : m.endPos = s ∨ m.endPos ∈ prev.map Prod.fst ∨
          m.endPos = nd.1 := by
        rcases hD with h | h
        · left; exact h
        · rw [List.map_cons] at h
          rcases List.mem_cons.mp h with h | h
          · right; right; exact h
          · right; left; exact h
      rcases hD2 with h | h | h
      · exact List.mem_append_left _ (inv.endQ (Or.inl h))
      · exact List.mem_append_left _ (inv.endQ (Or.inr h))
      · apply List.mem_append_right
        simp [h]
    · simp only [List.length_append, List.length_cons, List.length_nil]
      omega
  · rw [if_neg hguard]
    have hguard2 : nd.1 = s ∨ containsA nd.1 prev = true := by
      by_cases h1 : nd.1 = s
      · left; exact h1
      · right
        cases h2 : containsA nd.1 prev with
        | true => rfl
        | false => exact absurd ⟨h1, h2⟩ hguard
    refine ⟨⟨inv.qGrid, inv.qNodup, inv.qDisc, inv.qMin, inv.qGE,
      inv.pNodup, inv.pGrid, inv.pStart, inv.pDist, inv.pParent,
      inv.uGrid, inv.uDisc, inv.uNotQ, inv.uMin, inv.uNotEnd,
      inv.closedX, ?_, inv.endQ⟩, rfl⟩
    intro v hv
    rcases inv.cover v hv with h | ⟨d, hd⟩
    · left; exact h
    · rcases List.mem_cons.mp hd with heq | hd
      · left
        have hveq : v = nd.1 := congrArg Prod.fst heq
        rcases hguard2 with h1 | h1
        · left; rw [hveq, h1]
        · right
          rw [hveq]
          exact lookupA_isSome_iff.mp h1
      · right
        exact ⟨d, hd⟩

end Day12

namespace Day12

theorem fold_inv {m : ElevationMap} {s u : Nat × Nat} {t : Nat} :
    ∀ (nds : List ((Nat × Nat) × Nat))
      {queue : List ((Nat × Nat) × Nat)}
      {prev : List ((Nat × Nat) × (Nat × Nat))},
      (∀ nd ∈ nds, nd ∈ m.neighbours_with_distances u) →
      MidInv m s u t nds queue prev →
      MidInv m s u t [] (nds.foldl (relaxNeighbour s u t) (prev, queue)).2
        (nds.foldl (relaxNeighbour s u t) (prev, queue)).1 ∧
      (nds.foldl (relaxNeighbour s u t) (prev, queue)).2.length +
          prev.length =
        queue.length +
          (nds.foldl (relaxNeighbour s u t) (prev, queue)).1.length := by
  intro nds
  induction nds with
  | nil =>
    intro queue prev _ inv
    exact ⟨inv, rfl⟩
  | cons nd nds ih =>
    intro queue prev hmem inv
    obtain ⟨inv2, hlen2⟩ := fold_step inv (hmem nd (List.mem_cons_self _ _))
    obtain ⟨invf, hlenf⟩ :=
      ih (fun x hx => hmem x (List.mem_cons_of_mem _ hx)) inv2
    rw [Prod.mk.eta] at invf hlenf
    rw [List.foldl_cons]
    exact ⟨invf, by omega⟩

end Day12

namespace Day12

theorem lenAux_correct {m : ElevationMap} {s : Nat × Nat} {pop : Pop}
    (hpop : ValidPop pop) :
    ∀ (fuel : Nat) (queue : List ((Nat × Nat) × Nat))
      (prev : List ((Nat × Nat) × (Nat × Nat))),
      Inv m s queue prev →
      queue.length + (m.width * m.height - prev.length) ≤ fuel →
      prev.length ≤ m.width * m.height →
      ∃ r, lenAux pop m s fuel queue prev = some r ∧
        ((∃ L, r = some L ∧ minSteps m s m.endPos L) ∨
         (r = none ∧ ∀ n, ¬ Steps m n s m.endPos)) := by
  intro fuel
  induction fuel with
  | zero =>
    intro queue prev inv hfuel hprevN
    have hq0 : queue = [] := by
      cases queue with
      | nil => rfl
      | cons e rest => simp at hfuel
    subst hq0
    cases hp : pop [] with
    | none =>
      refine ⟨none, ?_, Or.inr ⟨rfl, ?_⟩⟩
      · unfold lenAux
        rw [hp]
      · intro n hn
        have hD := crossing_empty inv n m.endPos hn
        have := inv.endQ hD
        simp at this
    | some er =>
      have hv := hpop []
      rw [hp] at hv
      obtain ⟨e, rest⟩ := er
      exact absurd hv.1.length_eq (by simp)
  | succ fuel IH =>
    intro queue prev inv hfuel hprevN
    cases hp : pop queue with
    | none =>
      have hv := hpop queue
      rw [hp] at hv
      subst hv
      refine ⟨none, ?_, Or.inr ⟨rfl, ?_⟩⟩
      · unfold lenAux
        rw [hp]
      · intro n hn
        have hD := crossing_empty inv n m.endPos hn
        have := inv.endQ hD
        simp at this
    | some er =>
      obtain ⟨e, rest⟩ := er
      have hv := hpop queue
      rw [hp] at hv
      obtain ⟨hperm, hminq⟩ := hv
      have heq : e ∈ queue := hperm.subset (List.mem_cons_self _ _)
      by_cases hend : e.1 = m.endPos
      · have hemin : minSteps m s e.1 e.2 := inv.qMin e heq
        have hdisc : e.1 = s ∨ e.1 ∈ prev.map Prod.fst := inv.qDisc e heq
        have hwalk : walkLen prev e.1 = e.2 :=
          walkLen_eq m s prev inv.pDist inv.pParent inv.pStart hemin hdisc
        refine ⟨some (walkLen prev e.1), ?_, ?_⟩
        · unfold lenAux
          rw [hp]
          dsimp only
          rw [if_pos hend]
        · left
          refine ⟨walkLen prev e.1, rfl, ?_⟩
          rw [hwalk, ← hend]
          exact hemin
      · have hqperm : (queue.map Prod.fst).Perm ((e :: rest).map Prod.fst) :=
          (hperm.map Prod.fst).symm
        have hrestN : ((e :: rest).map Prod.fst).Nodup :=
          hqperm.nodup_iff.mp inv.qNodup
        simp only [List.map_cons] at hrestN
        obtain ⟨hnotrest, hrestnodup⟩ := List.nodup_cons.mp hrestN
        have hmemq : ∀ f ∈ rest, f ∈ queue := fun f hf =>
          hperm.subset (List.mem_cons_of_mem _ hf)
        have hnotq : ∀ w, w ≠ e.1 → w ∉ rest.map Prod.fst →
            w ∉ queue.map Prod.fst := by
          intro w hwu hwr hc
          have := hqperm.mem_iff.mp hc
          simp only [List.map_cons, List.mem_cons] at this
          rcases this with h | h
          · exact hwu h
          · exact hwr h
        have hmid : MidInv m s e.1 e.2
            (m.neighbours_with_distances e.1) rest prev :=
          { qGrid := fun f hf => inv.qGrid f (hmemq f hf)
            qNodup := hrestnodup
            qDisc := fun f hf => inv.qDisc f (hmemq f hf)
            qMin := fun f hf => inv.qMin f (hmemq f hf)
            qGE := fun f hf => hminq f (hmemq f hf)
            pNodup := inv.pNodup
            pGrid := inv.pGrid
            pStart := inv.pStart
            pDist := inv.pDist
            pParent := inv.pParent
            uGrid := inv.qGrid e heq
            uDisc := inv.qDisc e heq
            uNotQ := hnotrest
            uMin := inv.qMin e heq
            uNotEnd := hend
            closedX := fun w hwD hwQ hwu v hv =>
              inv.closed w hwD (hnotq w hwu hwQ) v hv
            cover := fun v hv => Or.inr hv
            endQ := by
              intro hD
              have := inv.endQ hD
              have h2 := hqperm.mem_iff.mp this
              simp only [List.map_cons, List.mem_cons] at h2
              rcases h2 with h | h
              · exact absurd h.symm hend
              · exact h }
        obtain ⟨invf, hlenf⟩ :=
          fold_inv (m.neighbours_with_distances e.1) (fun nd hnd => hnd) hmid
        have hinv2 : Inv m s
            ((m.neighbours_with_distances e.1).foldl
              (relaxNeighbour s e.1 e.2) (prev, rest)).2
            ((m.neighbours_with_distances e.1).foldl
              (relaxNeighbour s e.1 e.2) (prev, rest)).1 :=
          { qGrid := invf.qGrid
            qNodup := invf.qNodup
            qDisc := invf.qDisc
            qMin := invf.qMin
            pNodup := invf.pNodup
            pGrid := invf.pGrid
            pStart := invf.pStart
            pDist := invf.pDist
            pParent := invf.pParent
            closed := by
              intro w hwD hwQ v hv
              by_cases hwu : w = e.1
              · subst hwu
                rcases invf.cover v hv with h | ⟨d, hd⟩
                · exact h
                · simp at hd
              · exact invf.closedX w hwD hwQ hwu v hv
            endQ := invf.endQ }
        have hgrid : ∀ p ∈ ((m.neighbours_with_distances e.1).foldl
            (relaxNeighbour s e.1 e.2) (prev, rest)).1.map Prod.fst,
            p.1 < m.width ∧ p.2 < m.height := by
          intro p hpm
          obtain ⟨kv, hkv, hkveq⟩ := List.mem_map.mp hpm
          rw [← hkveq]
          exact invf.pGrid kv hkv
        have hstN : ((m.neighbours_with_distances e.1).foldl
            (relaxNeighbour s e.1 e.2) (prev, rest)).1.length ≤
            m.width * m.height := by
          have := nodup_grid_length invf.pNodup hgrid
          rw [List.length_map] at this
          exact this
        have hrestlen : rest.length + 1 = queue.length := by
          have := hperm.length_eq
          simp only [List.length_cons] at this
          omega
        have hmeas : ((m.neighbours_with_distances e.1).foldl
              (relaxNeighbour s e.1 e.2) (prev, rest)).2.length +
            (m.width * m.height -
              ((m.neighbours_with_distances e.1).foldl
                (relaxNeighbour s e.1 e.2) (prev, rest)).1.length) ≤
            fuel := by
          omega
        obtain ⟨r, hr, hprop⟩ := IH _ _ hinv2 hmeas hstN
        refine ⟨r, ?_, hprop⟩
        unfold lenAux
        rw [hp]
        dsimp only
        rw [if_neg hend]
        exact hr

end Day12

namespace Day12

theorem lsp_with_spec (pop : Pop) (hpop : ValidPop pop) (m : ElevationMap)
    (s : Nat × Nat) (hs : InGrid m s) :
    (∃ L, length_of_shortest_path_with pop m s = some L ∧
      minSteps m s m.endPos L) ∨
    (length_of_shortest_path_with pop m s = none ∧
      ∀ n, ¬ Steps m n s m.endPos) := by
  have hinv : Inv m s [(s, 0)] [] :=
    { qGrid := by
        intro e he
        simp only [List.mem_singleton] at he
        rw [he]
        exact hs
      qNodup := by simp
      qDisc := by
        intro e he
        simp only [List.mem_singleton] at he
        rw [he]
        left
        rfl
      qMin := by
        intro e he
        simp only [List.mem_singleton] at he
        rw [he]
        exact minSteps_self m s
      pNodup := by simp
      pGrid := by simp
      pStart := by simp
      pDist := by simp
      pParent := by simp
      closed := by
        intro w hwD hwQ v _hv
        exfalso
        rcases hwD with h | h
        · apply hwQ
          rw [h]
          simp
        · simp at h
      endQ := by
        intro hD
        rcases hD with h | h
        · rw [h]
          simp
        · simp at h }
  obtain ⟨r, hr, hprop⟩ := lenAux_correct hpop (m.width * m.height + 1)
    [(s, 0)] [] hinv (by simp; omega) (by simp)
  unfold length_of_shortest_path_with
  rw [hr]
  simp only [Option.getD_some]
  exact hprop

end Day12

namespace Day12

instance (m : ElevationMap) (p : Nat × Nat) : Decidable (InGrid m p) :=
  decidable_of_iff (p.1 < m.width ∧ p.2 < m.height) Iff.rfl

/-- C2: on a well-formed elevation map, `length_of_shortest_path` from the
start returns `some L` only for the minimal number of unit climbing steps
from start to end, returns `none` exactly when no such path exists, and in
that case `part1` returns the `NoPath` error. -/
theorem C2_day12_shortest_path (m : ElevationMap) (hwf : WellFormed m) :
    (∀ L, m.length_of_shortest_path m.start = some L →
      minSteps m m.start m.endPos L) ∧
    (m.length_of_shortest_path m.start = none ↔
      ∀ n, ¬ Steps m n m.start m.endPos) ∧
    (∀ input, try_from input = .ok m →
      m.length_of_shortest_path m.start = none →
      part1 input = some (.error .noPath)) := by
  have hdef : m.length_of_shortest_path m.start =
      length_of_shortest_path_with popMinFirst m m.start := rfl
  have hspec := lsp_with_spec popMinFirst popMinFirst_valid m m.start
    hwf.2.1
  refine ⟨?_, ⟨?_, ?_⟩, ?_⟩
  · intro L hL
    rw [hdef] at hL
    rcases hspec with ⟨L2, hL2, hmin⟩ | ⟨hnone, _⟩
    · rw [hL] at hL2
      rw [Option.some.inj hL2]
      exact hmin
    · rw [hL] at hnone
      exact absurd hnone (by simp)
  · intro hnone n hn
    rw [hdef] at hnone
    rcases hspec with ⟨L2, hL2, _⟩ | ⟨_, hunreach⟩
    · rw [hnone] at hL2
      exact absurd hL2 (by simp)
    · exact hunreach n hn
  · intro hunreach
    rw [hdef]
    rcases hspec with ⟨L2, _, hmin⟩ | ⟨hnone, _⟩
    · exact absurd hmin.1 (hunreach L2)
    · exact hnone
  · intro input htf hnone
    unfold part1
    rw [htf]
    dsimp only
    rw [hnone]

/-- A concrete well-formed map (no path exists on it) for witnesses. -/
def exMap : ElevationMap :=
  { width := 2, height := 2, storage := [97, 97, 98, 122],
    start := (0, 0), endPos := (1, 1) }

/-- Witness for C2 at the concrete map `exMap`. -/
theorem C2_day12_shortest_path_w :
    (∀ L, exMap.length_of_shortest_path exMap.start = some L →
      minSteps exMap exMap.start exMap.endPos L) ∧
    (exMap.length_of_shortest_path exMap.start = none ↔
      ∀ n, ¬ Steps exMap n exMap.start exMap.endPos) ∧
    (∀ input, try_from input = .ok exMap →
      exMap.length_of_shortest_path exMap.start = none →
      part1 input = some (.error .noPath)) :=
  C2_day12_shortest_path exMap (by decide)

/-- C6: the result of the search is independent of the heap policy — any
two valid tie-breaking policies for `BinaryHeap::pop` produce the same
result on the same map, so each run is a function of the input alone. -/
theorem C6_day12_policy_independent (pop1 pop2 : Pop)
    (h1 : ValidPop pop1) (h2 : ValidPop pop2) (m : ElevationMap)
    (s : Nat × Nat) (hs : InGrid m s) :
    length_of_shortest_path_with pop1 m s =
      length_of_shortest_path_with pop2 m s := by
  rcases lsp_with_spec pop1 h1 m s hs with ⟨L1, hL1, hm1⟩ | ⟨hn1, hu1⟩ <;>
    rcases lsp_with_spec pop2 h2 m s hs with ⟨L2, hL2, hm2⟩ | ⟨hn2, hu2⟩
  · rw [hL1, hL2, minSteps_unique hm1 hm2]
  · exact absurd hm1.1 (hu2 L1)
  · exact absurd hm2.1 (hu1 L2)
  · rw [hn1, hn2]

/-- Witness for C6: the leftmost-minimum and rightmost-minimum policies
agree on `exMap`. -/
theorem C6_day12_policy_independent_w :
    length_of_shortest_path_with popMinFirst exMap (0, 0) =
      length_of_shortest_path_with popMinLast exMap (0, 0) :=
  C6_day12_policy_independent popMinFirst popMinLast popMinFirst_valid
    popMinLast_valid exMap (0, 0) (by decide)

/-- The fixture asserted by day12's `test_part1`: the five-line example
grid yields shortest-path length 31. -/
theorem part1_example_eq_31 :
    part1 ["Sabqponm", "abcryxxl", "accszExk", "acctuvwj", "abdefghi"] =
      some (.ok 31) := by rfl

end Day12

/-- C1 counterexample: parse failures do not always reach `main` as error
values — day12's `part1` unwraps the map conversion and panics on a grid
without a start marker, and day1's `part2` panics via out-of-bounds slice
indexing on an input with fewer than three elf groups. -/
theorem C1_panic_cex :
    Day12.try_from ["ab"] = .error .noStartPosition ∧
    Day12.part1 ["ab"] = none ∧
    Day1.parse_elf_calories ["1"] = .ok [[1]] ∧
    Day1.part2 ["1"] = none :=
  ⟨by rfl, by rfl, by rfl, by rfl⟩

/-- C1 (amended): in day1 and day12, I/O failures and constructed error
values propagate unchanged to `main`, which aborts without any recovery,
retry or partial output; however a map-parse failure in day12's parts
aborts by panic instead of reaching `main` as an error, and day1's `part2`
panics when fewer than three groups are present (`C1_panic_cex`). -/
theorem C1_error_propagation :
    (∀ fs e, Aoc.read_lines fs "inputs/day1.txt" = .error e →
      Day1.main fs = (some (.error (.ioError e)),
        [.readFile "inputs/day1.txt"])) ∧
    (∀ fs e, Aoc.read_lines fs "inputs/day12.txt" = .error e →
      Day12.main fs = (some (.error (.ioError e)),
        [.readFile "inputs/day12.txt"])) ∧
    (∀ input e, Day1.parse_elf_calories input = .error e →
      Day1.part2 input = some (.error e)) ∧
    (∀ input e, Day12.try_from input = .error e →
      Day12.part1 input = none ∧ Day12.part2 input = none) ∧
    (∀ input m, Day12.try_from input = .ok m →
      ∃ r, Day12.part1 input = some r) ∧
    (∀ fs input m, Aoc.read_lines fs "inputs/day12.txt" = .ok input →
      Day12.try_from input = .ok m →
      m.length_of_shortest_path m.start = none →
      Day12.main fs = (some (.error .noPath),
        [.readFile "inputs/day12.txt"])) := by
  refine ⟨?_, ?_, ?_, ?_, ?_, ?_⟩
  · intro fs e h
    unfold Day1.main
    rw [h]
  · intro fs e h
    unfold Day12.main
    rw [h]
  · intro input e h
    unfold Day1.part2
    rw [h]
  · intro input e h
    constructor
    · unfold Day12.part1
      rw [h]
    · unfold Day12.part2
      rw [h]
  · intro input m h
    unfold Day12.part1
    rw [h]
    exact ⟨_, rfl⟩
  · intro fs input m hread htf hnone
    have hp1 : Day12.part1 input = some (.error .noPath) := by
      unfold Day12.part1
      rw [htf]
      dsimp only
      rw [hnone]
    unfold Day12.main
    rw [hread]
    dsimp only
    rw [hp1]

/-- The file system used by the C1 witness: the day12 input is a map with
no path from start to end. -/
def fsNoPath : Aoc.Fs := fun p =>
  if p = "inputs/day12.txt" then .ok [.ok "Sa", .ok "bE"]
  else .error (.mk 0)

/-- Witness for C1's propagation clause: on `fsNoPath` day12's `main`
aborts with the `NoPath` error after the single read. -/
theorem C1_error_propagation_w :
    Day12.main fsNoPath = (some (.error .noPath),
      [.readFile "inputs/day12.txt"]) :=
  C1_error_propagation.2.2.2.2.2 fsNoPath ["Sa", "bE"] Day12.exMap
    (by rfl) (by rfl) (by rfl)

/-- C7: on a successful run, day1's and day12's `main` perform exactly one
read of the fixed input path and print exactly two lines, in that order,
and nothing else. -/
theorem C7_success_effects (fs : Aoc.Fs) :
    ((Day1.main fs).1 = some (.ok ()) →
      ∃ v1 v2 : Nat, Day1.main fs = (some (.ok ()),
        [.readFile "inputs/day1.txt",
         .printLine ("Part 1: " ++ toString v1),
         .printLine ("Part 2: " ++ toString v2)])) ∧
    ((Day12.main fs).1 = some (.ok ()) →
      ∃ v1 v2 : Nat, Day12.main fs = (some (.ok ()),
        [.readFile "inputs/day12.txt",
         .printLine ("Part 1: " ++ toString v1),
         .printLine ("Part 2: " ++ toString v2)])) := by
  constructor
  · intro h
    cases hread : Aoc.read_lines fs "inputs/day1.txt" with
    | error e =>
      have hm : Day1.main fs =
          (some (.error (.ioError e)), [.readFile "inputs/day1.txt"]) := by
        unfold Day1.main
        rw [hread]
      rw [hm] at h
      simp at h
    | ok input =>
      cases hp1 : Day1.part1 input with
      | error e =>
        have hm : Day1.main fs =
            (some (.error e), [.readFile "inputs/day1.txt"]) := by
          unfold Day1.main
          rw [hread]
          dsimp only
          rw [hp1]
        rw [hm] at h
        simp at h
      | ok v1 =>
        cases hp2 : Day1.part2 input with
        | none =>
          have hm : Day1.main fs = (none, [.readFile "inputs/day1.txt",
              .printLine ("Part 1: " ++ toString v1)]) := by
            unfold Day1.main
            rw [hread]
            dsimp only
            rw [hp1]
            dsimp only
            rw [hp2]
          rw [hm] at h
          simp at h
        | some r2 =>
          cases r2 with
          | error e =>
            have hm : Day1.main fs = (some (.error e),
                [.readFile "inputs/day1.txt",
                 .printLine ("Part 1: " ++ toString v1)]) := by
              unfold Day1.main
              rw [hread]
              dsimp only
              rw [hp1]
              dsimp only
              rw [hp2]
            rw [hm] at h
            simp at h
          | ok v2 =>
            refine ⟨v1, v2, ?_⟩
            unfold Day1.main
            rw [hread]
            dsimp only
            rw [hp1]
            dsimp only
            rw [hp2]
  · intro h
    cases hread : Aoc.read_lines fs "inputs/day12.txt" with
    | error e =>
      have hm : Day12.main fs =
          (some (.error (.ioError e)), [.readFile "inputs/day12.txt"]) := by
        unfold Day12.main
        rw [hread]
      rw [hm] at h
      simp at h
    | ok input =>
      cases hp1 : Day12.part1 input with
      | none =>
        have hm : Day12.main fs = (none, [.readFile "inputs/day12.txt"]) := by
          unfold Day12.main
          rw [hread]
          dsimp only
          rw [hp1]
        rw [hm] at h
        simp at h
      | some r1 =>
        cases r1 with
        | error e =>
          have hm : Day12.main fs =
              (some (.error e), [.readFile "inputs/day12.txt"]) := by
            unfold Day12.main
            rw [hread]
            dsimp only
            rw [hp1]
          rw [hm] at h
          simp at h
        | ok v1 =>
          cases hp2 : Day12.part2 input with
          | none =>
            have hm : Day12.main fs = (none, [.readFile "inputs/day12.txt",
                .printLine ("Part 1: " ++ toString v1)]) := by
              unfold Day12.main
              rw [hread]
              dsimp only
              rw [hp1]
              dsimp only
              rw [hp2]
            rw [hm] at h
            simp at h
          | some r2 =>
            cases r2 with
            | error e =>
              have hm : Day12.main fs = (some (.error e),
                  [.readFile "inputs/day12.txt",
                   .printLine ("Part 1: " ++ toString v1)]) := by
                unfold Day12.main
                rw [hread]
                dsimp only
                rw [hp1]
                dsimp only
                rw [hp2]
              rw [hm] at h
              simp at h
            | ok v2 =>
              refine ⟨v1, v2, ?_⟩
              unfold Day12.main
              rw [hread]
              dsimp only
              rw [hp1]
              dsimp only
              rw [hp2]

/-- The file system used by the C7 witness: both inputs present and
solvable. -/
def fsBoth : Aoc.Fs := fun p =>
  if p = "inputs/day1.txt" then .ok [.ok "1", .ok "", .ok "2", .ok "", .ok "3"]
  else if p = "inputs/day12.txt" then
    .ok [.ok "SbcdefghijklmnopqrstuvwxyE"]
  else .error (.mk 0)

/-- Witness for C7 at the concrete file system `fsBoth`. -/
theorem C7_success_effects_w :
    (∃ v1 v2 : Nat, Day1.main fsBoth = (some (.ok ()),
      [.readFile "inputs/day1.txt",
       .printLine ("Part 1: " ++ toString v1),
       .printLine ("Part 2: " ++ toString v2)])) ∧
    (∃ v1 v2 : Nat, Day12.main fsBoth = (some (.ok ()),
      [.readFile "inputs/day12.txt",
       .printLine ("Part 1: " ++ toString v1),
       .printLine ("Part 2: " ++ toString v2)])) :=
  ⟨(C7_success_effects fsBoth).1 (by rfl),
   (C7_success_effects fsBoth).2 (by rfl)⟩

/-! ## `read_lines` (`src/lib.rs`, claim C3) -/

/-- Collecting a list of all-successful line reads yields exactly those
lines. -/
theorem Aoc.collect_map_ok (ls : List String) :
    Aoc.collectLines (ls.map Except.ok) = .ok ls := by
  induction ls with
  | nil => rfl
  | cons s rest ih => simp [Aoc.collectLines, ih, Except.map]

/-- If collecting succeeds, every line read succeeded and the result lists
the lines in order, untransformed. -/
theorem Aoc.collect_ok (rs : List (Except Aoc.IOError String))
    (ls : List String) (h : Aoc.collectLines rs = .ok ls) :
    rs = ls.map Except.ok := by
  induction rs generalizing ls with
  | nil =>
    simp [Aoc.collectLines] at h
    simp [h.symm]
  | cons r rest ih =>
    cases r with
    | error e => simp [Aoc.collectLines] at h
    | ok s =>
      rw [Aoc.collectLines] at h
      cases hc : Aoc.collectLines rest with
      | error e => rw [hc] at h; simp [Except.map] at h
      | ok rest2 =>
        rw [hc] at h
        simp [Except.map] at h
        rw [h.symm]
        simp [ih rest2 hc]

/-- If collecting fails with `e`, some line read failed with exactly `e`. -/
theorem Aoc.collect_err (rs : List (Except Aoc.IOError String))
    (e : Aoc.IOError) (h : Aoc.collectLines rs = .error e) :
    Except.error e ∈ rs := by
  induction rs with
  | nil => simp [Aoc.collectLines] at h
  | cons r rest ih =>
    cases r with
    | error e2 =>
      rw [Aoc.collectLines] at h
      injection h with h2
      rw [h2]
      exact List.mem_cons_self _ _
    | ok s =>
      rw [Aoc.collectLines] at h
      cases hc : Aoc.collectLines rest with
      | error e2 =>
        rw [hc] at h
        simp [Except.map] at h
        rw [h] at hc
        exact List.mem_cons_of_mem _ (ih hc)
      | ok rest2 => rw [hc] at h; simp [Except.map] at h

/-- C3: `read_lines` propagates an open failure unchanged; it returns `Ok`
exactly when the file opens and every line read succeeds, and then the
result is the file's lines in order with no other transformation; it
returns an I/O error exactly when the file cannot be opened or some line
read fails with that error. -/
theorem C3_read_lines_spec (fs : Aoc.Fs) (path : String) :
    (∀ e, fs path = .error e → Aoc.read_lines fs path = .error e) ∧
    (∀ ls, Aoc.read_lines fs path = .ok ls →
      fs path = .ok (ls.map Except.ok)) ∧
    (∀ ls, fs path = .ok (ls.map Except.ok) →
      Aoc.read_lines fs path = .ok ls) ∧
    (∀ e, Aoc.read_lines fs path = .error e →
      fs path = .error e ∨
        ∃ rs, fs path = .ok rs ∧ Except.error e ∈ rs) := by
  refine ⟨?_, ?_, ?_, ?_⟩
  · intro e h
    unfold Aoc.read_lines
    rw [h]
  · intro ls h
    cases hf : fs path with
    | error e =>
      have hm : Aoc.read_lines fs path = .error e := by
        unfold Aoc.read_lines
        rw [hf]
      rw [hm] at h
      simp at h
    | ok rs =>
      have hm : Aoc.read_lines fs path = Aoc.collectLines rs := by
        unfold Aoc.read_lines
        rw [hf]
      rw [hm] at h
      rw [Aoc.collect_ok rs ls h]
  · intro ls h
    unfold Aoc.read_lines
    rw [h]
    dsimp only
    exact Aoc.collect_map_ok ls
  · intro e h
    cases hf : fs path with
    | error e2 =>
      have hm : Aoc.read_lines fs path = .error e2 := by
        unfold Aoc.read_lines
        rw [hf]
      rw [hm] at h
      injection h with h2
      rw [h2]
      exact Or.inl rfl
    | ok rs =>
      have hm : Aoc.read_lines fs path = Aoc.collectLines rs := by
        unfold Aoc.read_lines
        rw [hf]
      rw [hm] at h
      exact Or.inr ⟨rs, rfl, Aoc.collect_err rs e h⟩

/-- The file system used by the C3 witness: a readable file, a file that
fails to open, and a file whose second line read fails. -/
def fsC3 : Aoc.Fs := fun path =>
  if path = "good.txt" then .ok [.ok "a", .ok "b"]
  else if path = "mid.txt" then .ok [.ok "a", .error (.mk 3)]
  else .error (.mk 2)

/-- Witness for C3 at the concrete file system `fsC3`: a full read, an
open failure, and a mid-file read failure. -/
theorem C3_read_lines_spec_w :
    fsC3 "good.txt" = .ok (["a", "b"].map Except.ok) ∧
    Aoc.read_lines fsC3 "good.txt" = .ok ["a", "b"] ∧
    fsC3 "bad.txt" = .error (.mk 2) ∧
    Aoc.read_lines fsC3 "bad.txt" = .error (.mk 2) ∧
    Aoc.read_lines fsC3 "mid.txt" = .error (.mk 3) ∧
    (fsC3 "mid.txt" = .error (.mk 3) ∨
      ∃ rs, fsC3 "mid.txt" = .ok rs ∧ Except.error (.mk 3) ∈ rs) :=
  ⟨by rfl,
   (C3_read_lines_spec fsC3 "good.txt").2.2.1 ["a", "b"] (by rfl),
   by rfl,
   (C3_read_lines_spec fsC3 "bad.txt").1 (.mk 2) (by rfl),
   by rfl,
   (C3_read_lines_spec fsC3 "mid.txt").2.2.2 (.mk 3) (by rfl)⟩
